import Mathlib

/-!
Verification of the `tokenize` two-pass lexer from `src/lib.rs` of the
`language-expression` repository.

The Rust function scans a byte string containing function calls of the form
`{name,arg,...}` embedded in literal text, with backslash escapes for the four
control bytes `{` (123), `}` (125), `,` (44) and `\` (92).  It is called twice:
once with no output buffer (sizing pass) and once with a caller-allocated
output buffer (filling pass).  A caller-provided scratch buffer of unsigned
integers, the same length as the input, is used as two stacks growing towards
each other.

The embedding below models the loop body of `tokenize` as a step function
`scanStep` over an explicit state record `ScanState`; the output buffer is an
`Option (List Token)` mutated by index, exactly as the Rust code mutates
`Option<&mut [Token]>`.  Machine integers (`usize`) become `Nat`; the
subtraction sites in the source are only ever executed when the subtrahend is
smaller, so truncating `Nat` subtraction agrees with the source.  The fallible
function returns `Except`; the three `&'static str` error reasons of the
source are modelled by the enumeration `ErrReason`.
-/

namespace LangExpr

/-- A byte of the input (Rust `u8`).  The code only ever compares bytes for
equality with the literals `{` `}` `,` `\`, so we model bytes as `Nat`. -/
abbrev Byte := Nat

/-- The `Token` enum from src/lib.rs (lines 55-61), flattened: `Character`
carries `offset` and `val`; `Function` carries `offset`, `name` (the byte
slice `&input[v..i]`, modelled as the list of those bytes), `num_args`,
`delta` and `first_arg_delta`; `FunctionArgEnd` carries `offset` and
`arg_delta`.  `Invalid` is the uninitialized sentinel. -/
inductive Token where
  | Invalid : Token
  | Character (offset : Nat) (val : Byte) : Token
  | Function (offset : Nat) (name : List Byte) (num_args : Nat) (delta : Nat)
      (first_arg_delta : Option Nat) : Token
  | FunctionArgEnd (offset : Nat) (arg_delta : Option Nat) : Token
deriving DecidableEq, Repr

/-- The three `&'static str` error reasons of `tokenize`:
`incompleteName` is `"function name wasn't completed"` (line 271),
`unclosed` is `"unclosed function"` (line 289), and `internalError` is
`"internal error"` (the `debug_assert!(false)` branches). -/
inductive ErrReason where
  | incompleteName : ErrReason
  | unclosed : ErrReason
  | internalError : ErrReason
deriving DecidableEq, Repr

/-- The mutable state of the scan loop in `tokenize` (lines 89-95 of
src/lib.rs), together with the two buffers it mutates: `output` is the
optional output buffer, `stack` the scratch buffer holding the two stacks. -/
structure ScanState where
  output : Option (List Token)
  output_index : Nat
  escaped : Bool
  stack : List Nat
  function_stack_index : Nat
  function_arg_begin_stack_index : Nat
  function_name_begin : Option Nat
deriving DecidableEq, Repr

/-- The nested `send_output` function (lines 97-106): write the token at
`output_index` when the output buffer is present, and always increment
`output_index`. -/
def send_output (tok : Token) (s : ScanState) : ScanState :=
  { s with
    output := s.output.map (fun o => o.set s.output_index tok),
    output_index := s.output_index + 1 }

/-- Lines 171-183: when the output buffer is present, increment `num_args` of
the `Function` token referenced by the forward-stack top; any other token
shape there is the `debug_assert!(false)` internal error. -/
def incNumArgs (s : ScanState) : Except (Nat × ErrReason) ScanState :=
  match s.output with
  | none => .ok s
  | some o =>
    match o.getD (s.stack.getD (s.function_stack_index - 1) 0) Token.Invalid with
    | .Function off nm na d fad =>
        .ok { s with output := some (o.set (s.stack.getD (s.function_stack_index - 1) 0)
          (.Function off nm (na + 1) d fad)) }
    | _ => .error (0, .internalError)

/-- Lines 185-202: when the output buffer is present, patch the pending marker
referenced by the backward-stack top, setting its `first_arg_delta`
(`Function`) or `arg_delta` (`FunctionArgEnd`) to `output_index - index`. -/
def patchPendingMarker (s : ScanState) : Except (Nat × ErrReason) ScanState :=
  match s.output with
  | none => .ok s
  | some o =>
    match o.getD (s.stack.getD s.function_arg_begin_stack_index 0) Token.Invalid with
    | .Function off nm na d _ =>
        .ok { s with output := some (o.set (s.stack.getD s.function_arg_begin_stack_index 0)
          (.Function off nm na d
            (some (s.output_index - s.stack.getD s.function_arg_begin_stack_index 0)))) }
    | .FunctionArgEnd off _ =>
        .ok { s with output := some (o.set (s.stack.getD s.function_arg_begin_stack_index 0)
          (.FunctionArgEnd off
            (some (s.output_index - s.stack.getD s.function_arg_begin_stack_index 0)))) }
    | _ => .error (0, .internalError)

/-- Lines 215-234: on `}` the function ended; pop both stacks, and when the
output buffer is present set the popped `Function` token's `delta` to
`output_index - index`. -/
def closeFunction (s : ScanState) : Except (Nat × ErrReason) ScanState :=
  let s1 := { s with
    function_stack_index := s.function_stack_index - 1,
    function_arg_begin_stack_index := s.function_arg_begin_stack_index + 1 }
  match s1.output with
  | none => .ok s1
  | some o =>
    match o.getD (s1.stack.getD s1.function_stack_index 0) Token.Invalid with
    | .Function off nm na _ fad =>
        .ok { s1 with output := some (o.set (s1.stack.getD s1.function_stack_index 0)
          (.Function off nm na
            (s1.output_index - s1.stack.getD s1.function_stack_index 0) fad)) }
    | _ => .error (0, .internalError)

/-- The byte slice `&input[a..b]`. -/
def slice (l : List Byte) (a b : Nat) : List Byte := (l.take b).drop a

/-- One iteration of the `for (i, ch) in input.iter().enumerate()` loop of
`tokenize` (lines 108-268).  `input` is only consulted for the name slice
`&input[v..i]`. -/
def scanStep (input : List Byte) (i : Nat) (ch : Byte) (s : ScanState) :
    Except (Nat × ErrReason) ScanState :=
  match s.function_name_begin with
  | none =>
    if s.escaped then
      let s1 :=
        if ch = 123 ∨ ch = 125 ∨ ch = 44 ∨ ch = 92 then
          send_output (.Character (i - 1) ch) s
        else
          send_output (.Character i ch) (send_output (.Character (i - 1) 92) s)
      .ok { s1 with escaped := false }
    else if ch = 92 then
      .ok { s with escaped := true }
    else if ch = 123 then
      .ok { s with function_name_begin := some (i + 1) }
    else if s.function_stack_index = 0 ∨ (ch ≠ 44 ∧ ch ≠ 125) then
      .ok (send_output (.Character i ch) s)
    else
      match incNumArgs s with
      | .error e => .error e
      | .ok sa =>
        match patchPendingMarker sa with
        | .error e => .error e
        | .ok sb =>
          let sc := { sb with
            stack := sb.stack.set sb.function_arg_begin_stack_index sb.output_index }
          let sd := send_output (.FunctionArgEnd i none) sc
          if ch = 125 then closeFunction sd else .ok sd
  | some v =>
    if ch = 44 ∨ ch = 125 then
      if ch = 44 then
        let s2 := { s with
          stack := (s.stack.set s.function_stack_index s.output_index).set
            (s.function_arg_begin_stack_index - 1) s.output_index,
          function_stack_index := s.function_stack_index + 1,
          function_arg_begin_stack_index := s.function_arg_begin_stack_index - 1,
          function_name_begin := none }
        .ok (send_output (.Function (v - 1) (slice input v i) 0 0 none) s2)
      else
        .ok (send_output (.Function (v - 1) (slice input v i) 0 1 none)
          { s with function_name_begin := none })
    else
      .ok s

/-- The scan loop itself: process the remaining bytes `rest`, where `i` is the
index of the head of `rest` within `input`. -/
def scanLoop (input : List Byte) : Nat → List Byte → ScanState →
    Except (Nat × ErrReason) ScanState
  | _, [], s => .ok s
  | i, ch :: rest, s =>
    match scanStep input i ch s with
    | .error e => .error e
    | .ok s1 => scanLoop input (i + 1) rest s1

/-- The initial state of a call to `tokenize` (lines 89-95):
`function_arg_begin_stack_index` starts at `stack.len()`. -/
def initState (stack : List Nat) (output : Option (List Token)) : ScanState :=
  { output := output, output_index := 0, escaped := false, stack := stack,
    function_stack_index := 0, function_arg_begin_stack_index := stack.length,
    function_name_begin := none }

/-- The end-of-input checks of `tokenize` (lines 270-294): incomplete function
name fails on both passes; a non-empty forward stack fails only when the
output buffer is present (on the sizing pass the offset cannot be
retrieved). -/
def finishTokenize (s : ScanState) : Except (Nat × ErrReason) (Nat × Option (List Token)) :=
  match s.function_name_begin with
  | some v => .error (v, .incompleteName)
  | none =>
    if s.function_stack_index ≠ 0 then
      match s.output with
      | none => .ok (s.output_index, s.output)
      | some o =>
        match o.getD (s.stack.getD (s.function_stack_index - 1) 0) Token.Invalid with
        | .Function off _ _ _ _ => .error (off, .unclosed)
        | _ => .error (0, .internalError)
    else .ok (s.output_index, s.output)

/-- The public `tokenize` function (lines 76-295).  The Rust function returns
`Ok(output_index)` and mutates the output buffer in place; the embedding
returns the pair of the count and the final output buffer. -/
def tokenize (input : List Byte) (stack : List Nat) (output : Option (List Token)) :
    Except (Nat × ErrReason) (Nat × Option (List Token)) :=
  match scanLoop input 0 input (initState stack output) with
  | .error e => .error e
  | .ok s => finishTokenize s

/-! ### List helper lemmas -/

theorem getD_set_ne {α : Type _} {l : List α} {i j : Nat} (a d : α) (h : i ≠ j) :
    (l.set i a).getD j d = l.getD j d := by
  simp [List.getD_eq_getElem?_getD, List.getElem?_set_ne h]

theorem getD_set_self {α : Type _} {l : List α} {i : Nat} (a d : α) (h : i < l.length) :
    (l.set i a).getD i d = a := by
  simp [List.getD_eq_getElem?_getD, List.getElem?_set_self, h]

theorem lt_length_of_getD_ne {α : Type _} {l : List α} {k : Nat} {d : α}
    (h : l.getD k d ≠ d) : k < l.length := by
  by_contra hk
  push_neg at hk
  exact h (by simp [List.getD_eq_getElem?_getD, List.getElem?_eq_none (by omega : l.length ≤ k)])

/-! ### Chains of `FunctionArgEnd` tokens

`ArgChain o idx n last` states that index `idx` of the output buffer `o`
holds a `FunctionArgEnd` token, and that repeatedly jumping forward by the
recorded `arg_delta` visits exactly `n` `FunctionArgEnd` tokens, the last one
at index `last` carrying `arg_delta = none`.  All `arg_delta` values recorded
by the code are positive, so positivity is built in. -/

inductive ArgChain (o : List Token) : Nat → Nat → Nat → Prop where
  | last (idx off : Nat)
      (h : o.getD idx Token.Invalid = .FunctionArgEnd off none) :
      ArgChain o idx 1 idx
  | cons (idx off d n last : Nat)
      (h : o.getD idx Token.Invalid = .FunctionArgEnd off (some d))
      (hd : 0 < d) (hc : ArgChain o (idx + d) n last) : ArgChain o idx (n + 1) last

theorem ArgChain.one_le {o : List Token} {idx n last : Nat}
    (h : ArgChain o idx n last) : 1 ≤ n := by
  cases h <;> omega

theorem ArgChain.le_last {o : List Token} {idx n last : Nat}
    (h : ArgChain o idx n last) : idx ≤ last := by
  induction h with
  | last idx off hh => exact Nat.le_refl idx
  | cons idx off d n last hh hd hc ih => omega

theorem ArgChain.terminal {o : List Token} {idx n last : Nat}
    (h : ArgChain o idx n last) :
    ∃ off, o.getD last Token.Invalid = .FunctionArgEnd off none := by
  induction h with
  | last idx off hh => exact ⟨off, hh⟩
  | cons idx off d n last hh hd hc ih => exact ih

theorem ArgChain.set_outside {o : List Token} {idx n last k : Nat} {t : Token}
    (h : ArgChain o idx n last) (hk : k < idx ∨ last < k) :
    ArgChain (o.set k t) idx n last := by
  induction h with
  | last idx off hh =>
      exact ArgChain.last idx off (by rw [getD_set_ne _ _ (by omega)]; exact hh)
  | cons idx off d n last hh hd hc ih =>
      have hil : idx + d ≤ last := hc.le_last
      exact ArgChain.cons idx off d n last
        (by rw [getD_set_ne _ _ (by omega : k ≠ idx)]; exact hh) hd (ih (by omega))

theorem ArgChain.set_not_argEnd {o : List Token} {idx n last k : Nat} {t : Token}
    (h : ArgChain o idx n last)
    (hk : ∀ off ad, o.getD k Token.Invalid ≠ .FunctionArgEnd off ad) :
    ArgChain (o.set k t) idx n last := by
  induction h with
  | last idx off hh =>
      have hne : k ≠ idx := fun he => hk off none (he ▸ hh)
      exact ArgChain.last idx off (by rw [getD_set_ne _ _ hne]; exact hh)
  | cons idx off d n last hh hd hc ih =>
      have hne : k ≠ idx := fun he => hk off (some d) (he ▸ hh)
      exact ArgChain.cons idx off d n last (by rw [getD_set_ne _ _ hne]; exact hh) hd ih

theorem ArgChain.extend {o : List Token} {idx n last m off i2 : Nat}
    (h : ArgChain o idx n last) :
    o.getD last Token.Invalid = .FunctionArgEnd off none →
    last < m → m < o.length →
    ArgChain ((o.set last (.FunctionArgEnd off (some (m - last)))).set m
      (.FunctionArgEnd i2 none)) idx (n + 1) m := by
  induction h with
  | last idx off3 hh =>
      intro hlast hm hmN
      have hidx : idx < o.length := lt_length_of_getD_ne (by rw [hh]; intro hc; cases hc)
      have h1 : ((o.set idx (Token.FunctionArgEnd off (some (m - idx)))).set m
          (Token.FunctionArgEnd i2 none)).getD idx Token.Invalid
          = Token.FunctionArgEnd off (some (m - idx)) := by
        rw [getD_set_ne _ _ (by omega : m ≠ idx), getD_set_self _ _ hidx]
      have h2 : ((o.set idx (Token.FunctionArgEnd off (some (m - idx)))).set m
          (Token.FunctionArgEnd i2 none)).getD m Token.Invalid
          = Token.FunctionArgEnd i2 none := by
        rw [getD_set_self _ _ (by simpa using hmN)]
      have hsum : idx + (m - idx) = m := by omega
      have hc : ArgChain ((o.set idx (Token.FunctionArgEnd off (some (m - idx)))).set m
          (Token.FunctionArgEnd i2 none)) (idx + (m - idx)) 1 m := by
        rw [hsum]; exact ArgChain.last m i2 h2
      exact ArgChain.cons idx off (m - idx) 1 m h1 (by omega) hc
  | cons idx off3 d n last hh hd hc ih =>
      intro hlast hm hmN
      have hil : idx + d ≤ last := hc.le_last
      have h1 : ((o.set last (Token.FunctionArgEnd off (some (m - last)))).set m
          (Token.FunctionArgEnd i2 none)).getD idx Token.Invalid
          = Token.FunctionArgEnd off3 (some d) := by
        rw [getD_set_ne _ _ (by omega : m ≠ idx), getD_set_ne _ _ (by omega : last ≠ idx)]
        exact hh
      exact ArgChain.cons idx off3 d (n + 1) m h1 hd (ih hlast hm hmN)

/-! ### Erasing the output buffer: the sizing pass simulates the filling pass -/

/-- The state with the output buffer removed: all components that drive the
control flow of the scan are kept. -/
def eraseOut (s : ScanState) : ScanState := { s with output := none }

theorem eraseOut_initState (stack : List Nat) (out : Option (List Token)) :
    eraseOut (initState stack out) = initState stack none := rfl

theorem eraseOut_send_output (tok : Token) (s : ScanState) :
    eraseOut (send_output tok s) = send_output tok (eraseOut s) := rfl

theorem incNumArgs_erase {s sa : ScanState} (h : incNumArgs s = .ok sa) :
    incNumArgs (eraseOut s) = .ok (eraseOut sa) := by
  have hE : incNumArgs (eraseOut s) = .ok (eraseOut s) := rfl
  rw [hE]
  unfold incNumArgs at h
  cases hout : s.output with
  | none =>
      simp only [hout, Except.ok.injEq] at h
      rw [h]
  | some o =>
      simp only [hout] at h
      cases htok : o.getD (s.stack.getD (s.function_stack_index - 1) 0) Token.Invalid with
      | Function off nm na d fad =>
          simp only [htok, Except.ok.injEq] at h
          rw [← h]
          rfl
      | Invalid => simp only [htok] at h; exact Except.noConfusion h
      | Character a b => simp only [htok] at h; exact Except.noConfusion h
      | FunctionArgEnd a b => simp only [htok] at h; exact Except.noConfusion h

theorem patchPendingMarker_erase {s sa : ScanState} (h : patchPendingMarker s = .ok sa) :
    patchPendingMarker (eraseOut s) = .ok (eraseOut sa) := by
  have hE : patchPendingMarker (eraseOut s) = .ok (eraseOut s) := rfl
  rw [hE]
  unfold patchPendingMarker at h
  cases hout : s.output with
  | none =>
      simp only [hout, Except.ok.injEq] at h
      rw [h]
  | some o =>
      simp only [hout] at h
      cases htok : o.getD (s.stack.getD s.function_arg_begin_stack_index 0) Token.Invalid with
      | Function off nm na d fad =>
          simp only [htok, Except.ok.injEq] at h
          rw [← h]
          rfl
      | FunctionArgEnd a b =>
          simp only [htok, Except.ok.injEq] at h
          rw [← h]
          rfl
      | Invalid => simp only [htok] at h; exact Except.noConfusion h
      | Character a b => simp only [htok] at h; exact Except.noConfusion h

theorem closeFunction_erase {s sa : ScanState} (h : closeFunction s = .ok sa) :
    closeFunction (eraseOut s) = .ok (eraseOut sa) := by
  have hE : closeFunction (eraseOut s) = .ok (eraseOut { s with
      function_stack_index := s.function_stack_index - 1,
      function_arg_begin_stack_index := s.function_arg_begin_stack_index + 1 }) := rfl
  rw [hE]
  unfold closeFunction at h
  cases hout : s.output with
  | none =>
      simp only [hout, Except.ok.injEq] at h
      rw [h]
  | some o =>
      simp only [hout] at h
      cases htok : o.getD (s.stack.getD (s.function_stack_index - 1) 0) Token.Invalid with
      | Function off nm na d fad =>
          simp only [htok, Except.ok.injEq] at h
          rw [← h]
          rfl
      | Invalid => simp only [htok] at h; exact Except.noConfusion h
      | Character a b => simp only [htok] at h; exact Except.noConfusion h
      | FunctionArgEnd a b => simp only [htok] at h; exact Except.noConfusion h

@[simp] theorem eraseOut_output (s : ScanState) : (eraseOut s).output = none := rfl

@[simp] theorem eraseOut_output_index (s : ScanState) :
    (eraseOut s).output_index = s.output_index := rfl

@[simp] theorem eraseOut_escaped (s : ScanState) : (eraseOut s).escaped = s.escaped := rfl

@[simp] theorem eraseOut_stack (s : ScanState) : (eraseOut s).stack = s.stack := rfl

@[simp] theorem eraseOut_fsi (s : ScanState) :
    (eraseOut s).function_stack_index = s.function_stack_index := rfl

@[simp] theorem eraseOut_fabsi (s : ScanState) :
    (eraseOut s).function_arg_begin_stack_index = s.function_arg_begin_stack_index := rfl

@[simp] theorem eraseOut_fnb (s : ScanState) :
    (eraseOut s).function_name_begin = s.function_name_begin := rfl

/-- The sizing pass simulates each filling-pass step: erasing the output
buffer commutes with `scanStep`. -/
theorem scanStep_erase {input : List Byte} {i : Nat} {ch : Byte} {s s1 : ScanState}
    (h : scanStep input i ch s = .ok s1) :
    scanStep input i ch (eraseOut s) = .ok (eraseOut s1) := by
  cases hfnb : s.function_name_begin with
  | some v =>
      unfold scanStep at h ⊢
      simp only [hfnb] at h
      simp only [eraseOut_fnb, hfnb]
      by_cases hch : ch = 44 ∨ ch = 125
      · rw [if_pos hch] at h ⊢
        by_cases hch2 : ch = 44
        · rw [if_pos hch2] at h ⊢
          simp only [Except.ok.injEq] at h
          rw [← h]
          rfl
        · rw [if_neg hch2] at h ⊢
          simp only [Except.ok.injEq] at h
          rw [← h]
          rfl
      · rw [if_neg hch] at h ⊢
        simp only [Except.ok.injEq] at h
        rw [← h]
  | none =>
      unfold scanStep at h ⊢
      simp only [hfnb] at h
      simp only [eraseOut_fnb, hfnb]
      by_cases hesc : s.escaped = true
      · simp only [eraseOut_escaped, hesc, if_true] at h ⊢
        by_cases hch : ch = 123 ∨ ch = 125 ∨ ch = 44 ∨ ch = 92
        · rw [if_pos hch] at h ⊢
          simp only [Except.ok.injEq] at h
          rw [← h]
          rfl
        · rw [if_neg hch] at h ⊢
          simp only [Except.ok.injEq] at h
          rw [← h]
          rfl
      · simp only [eraseOut_escaped]
        rw [if_neg hesc] at h ⊢
        by_cases hch92 : ch = 92
        · rw [if_pos hch92] at h ⊢
          simp only [Except.ok.injEq] at h
          rw [← h]
          rfl
        · rw [if_neg hch92] at h ⊢
          by_cases hch123 : ch = 123
          · rw [if_pos hch123] at h ⊢
            simp only [Except.ok.injEq] at h
            rw [← h]
            rfl
          · rw [if_neg hch123] at h ⊢
            simp only [eraseOut_fsi]
            by_cases hplain : s.function_stack_index = 0 ∨ (ch ≠ 44 ∧ ch ≠ 125)
            · rw [if_pos hplain] at h ⊢
              simp only [Except.ok.injEq] at h
              rw [← h]
              rfl
            · rw [if_neg hplain] at h ⊢
              cases hinc : incNumArgs s with
              | error e => simp only [hinc] at h; exact Except.noConfusion h
              | ok sa =>
                  simp only [hinc] at h
                  simp only [incNumArgs_erase hinc]
                  cases hpatch : patchPendingMarker sa with
                  | error e => simp only [hpatch] at h; exact Except.noConfusion h
                  | ok sb =>
                      simp only [hpatch] at h
                      simp only [patchPendingMarker_erase hpatch]
                      by_cases hch125 : ch = 125
                      · rw [if_pos hch125] at h ⊢
                        exact closeFunction_erase h
                      · rw [if_neg hch125] at h ⊢
                        simp only [Except.ok.injEq] at h
                        rw [← h]
                        rfl

/-- With no output buffer a step never fails, keeps the buffer absent, and
never decreases `output_index`. -/
theorem scanStep_none {input : List Byte} {i : Nat} {ch : Byte} {s : ScanState}
    (hout : s.output = none) :
    ∃ s1, scanStep input i ch s = .ok s1 ∧ s1.output = none ∧
      s.output_index ≤ s1.output_index := by
  cases hfnb : s.function_name_begin with
  | some v =>
      unfold scanStep
      simp only [hfnb]
      by_cases hch : ch = 44 ∨ ch = 125
      · rw [if_pos hch]
        by_cases hch2 : ch = 44
        · rw [if_pos hch2]
          exact ⟨_, rfl, by simp [send_output, hout], by simp [send_output]⟩
        · rw [if_neg hch2]
          exact ⟨_, rfl, by simp [send_output, hout], by simp [send_output]⟩
      · rw [if_neg hch]
        exact ⟨s, rfl, hout, Nat.le_refl _⟩
  | none =>
      unfold scanStep
      simp only [hfnb]
      by_cases hesc : s.escaped = true
      · simp only [hesc, if_true]
        by_cases hch : ch = 123 ∨ ch = 125 ∨ ch = 44 ∨ ch = 92
        · rw [if_pos hch]
          exact ⟨_, rfl, by simp [send_output, hout], by simp [send_output]⟩
        · rw [if_neg hch]
          exact ⟨_, rfl, by simp [send_output, hout], by simp [send_output]; omega⟩
      · rw [if_neg hesc]
        by_cases hch92 : ch = 92
        · rw [if_pos hch92]
          exact ⟨_, rfl, hout, Nat.le_refl _⟩
        · rw [if_neg hch92]
          by_cases hch123 : ch = 123
          · rw [if_pos hch123]
            exact ⟨_, rfl, hout, Nat.le_refl _⟩
          · rw [if_neg hch123]
            by_cases hplain : s.function_stack_index = 0 ∨ (ch ≠ 44 ∧ ch ≠ 125)
            · rw [if_pos hplain]
              exact ⟨_, rfl, by simp [send_output, hout], by simp [send_output]⟩
            · rw [if_neg hplain]
              have hinc : incNumArgs s = .ok s := by unfold incNumArgs; rw [hout]
              have hpatch : patchPendingMarker s = .ok s := by
                unfold patchPendingMarker; rw [hout]
              simp only [hinc, hpatch]
              by_cases hch125 : ch = 125
              · rw [if_pos hch125]
                have hclose : ∀ t : ScanState, t.output = none →
                    closeFunction t = .ok { t with
                      function_stack_index := t.function_stack_index - 1,
                      function_arg_begin_stack_index := t.function_arg_begin_stack_index + 1 } := by
                  intro t ht
                  unfold closeFunction
                  rw [ht]
                rw [hclose _ (by simp [send_output, hout])]
                exact ⟨_, rfl, by simp [send_output, hout], by simp [send_output]⟩
              · rw [if_neg hch125]
                exact ⟨_, rfl, by simp [send_output, hout], by simp [send_output]⟩

/-- Loop version of `scanStep_none`: the sizing pass always completes. -/
theorem scanLoop_none {input : List Byte} :
    ∀ (rest : List Byte) (i : Nat) (s : ScanState), s.output = none →
    ∃ s1, scanLoop input i rest s = .ok s1 ∧ s1.output = none ∧
      s.output_index ≤ s1.output_index := by
  intro rest
  induction rest with
  | nil => exact fun i s hout => ⟨s, rfl, hout, Nat.le_refl _⟩
  | cons ch rest ih =>
      intro i s hout
      obtain ⟨sa, hstep, hanone, hmono⟩ := @scanStep_none input i ch s hout
      obtain ⟨s1, hloop, h1none, hmono2⟩ := ih (i + 1) sa hanone
      exact ⟨s1, by simp only [scanLoop, hstep]; exact hloop, h1none,
        Nat.le_trans hmono hmono2⟩

/-- Loop version of `scanStep_erase`. -/
theorem scanLoop_erase {input : List Byte} :
    ∀ (rest : List Byte) (i : Nat) (s s1 : ScanState),
    scanLoop input i rest s = .ok s1 →
    scanLoop input i rest (eraseOut s) = .ok (eraseOut s1) := by
  intro rest
  induction rest with
  | nil =>
      intro i s s1 h
      simp only [scanLoop, Except.ok.injEq] at h ⊢
      rw [h]
  | cons ch rest ih =>
      intro i s s1 h
      simp only [scanLoop] at h ⊢
      cases hstep : scanStep input i ch s with
      | error e => rw [hstep] at h; exact Except.noConfusion h
      | ok sa =>
          rw [hstep] at h
          rw [scanStep_erase hstep]
          exact ih (i + 1) sa s1 h

/-- Incrementing `num_args` only changes the output buffer. -/
theorem incNumArgs_eraseEq {s sa : ScanState} (h : incNumArgs s = .ok sa) :
    eraseOut sa = eraseOut s := by
  have h1 := incNumArgs_erase h
  have h2 : incNumArgs (eraseOut s) = .ok (eraseOut s) := rfl
  rw [h1] at h2
  injection h2

/-- Patching the pending marker only changes the output buffer. -/
theorem patchPendingMarker_eraseEq {s sa : ScanState} (h : patchPendingMarker s = .ok sa) :
    eraseOut sa = eraseOut s := by
  have h1 := patchPendingMarker_erase h
  have h2 : patchPendingMarker (eraseOut s) = .ok (eraseOut s) := rfl
  rw [h1] at h2
  injection h2

/-- Closing a function pops both stacks and otherwise only changes the output
buffer. -/
theorem closeFunction_eraseEq {s sa : ScanState} (h : closeFunction s = .ok sa) :
    eraseOut sa = eraseOut { s with
      function_stack_index := s.function_stack_index - 1,
      function_arg_begin_stack_index := s.function_arg_begin_stack_index + 1 } := by
  have h1 := closeFunction_erase h
  have h2 : closeFunction (eraseOut s) = .ok (eraseOut { s with
      function_stack_index := s.function_stack_index - 1,
      function_arg_begin_stack_index := s.function_arg_begin_stack_index + 1 }) := rfl
  rw [h1] at h2
  injection h2

/-- Claim C1: if the filling pass `tokenize(input, scratch, Some(buffer))`
succeeds with count `n`, then the sizing pass `tokenize(input, scratch, None)`
on the same input and scratch also succeeds and returns exactly `n`. -/
theorem filling_ok_sizing_same_count (input : List Byte) (stack : List Nat)
    (buf : List Token) (n : Nat) (res : Option (List Token))
    (hlen : stack.length = input.length)
    (h : tokenize input stack (some buf) = .ok (n, res)) :
    tokenize input stack none = .ok (n, none) := by
  unfold tokenize at h ⊢
  cases hloop : scanLoop input 0 input (initState stack (some buf)) with
  | error e => rw [hloop] at h; exact Except.noConfusion h
  | ok sf =>
      simp only [hloop] at h
      have herase := scanLoop_erase input 0 _ _ hloop
      rw [eraseOut_initState] at herase
      simp only [herase]
      unfold finishTokenize at h ⊢
      cases hfnb : sf.function_name_begin with
      | some v => simp only [hfnb] at h; exact Except.noConfusion h
      | none =>
          simp only [hfnb] at h
          simp only [eraseOut_fnb, hfnb]
          by_cases hfsi : sf.function_stack_index ≠ 0
          · rw [if_pos hfsi] at h
            simp only [eraseOut_fsi]
            rw [if_pos hfsi]
            cases hout : sf.output with
            | none =>
                simp only [hout] at h
                simp only [eraseOut_output]
                simp only [Except.ok.injEq, Prod.mk.injEq] at h
                simp only [eraseOut_output_index]
                rw [h.1]
            | some o =>
                simp only [hout] at h
                cases htok : o.getD (sf.stack.getD (sf.function_stack_index - 1) 0)
                    Token.Invalid with
                | Function a b c d e => simp only [htok] at h; exact Except.noConfusion h
                | Invalid => simp only [htok] at h; exact Except.noConfusion h
                | Character a b => simp only [htok] at h; exact Except.noConfusion h
                | FunctionArgEnd a b => simp only [htok] at h; exact Except.noConfusion h
          · rw [if_neg hfsi] at h
            simp only [eraseOut_fsi, eraseOut_output, eraseOut_output_index]
            rw [if_neg hfsi]
            simp only [Except.ok.injEq, Prod.mk.injEq] at h
            rw [h.1]

/-- Witness for C1 at input `"abc"`. -/
theorem filling_ok_sizing_same_count_witness :
    tokenize [97, 98, 99] [0, 0, 0] none = .ok (3, none) :=
  filling_ok_sizing_same_count [97, 98, 99] [0, 0, 0]
    (List.replicate 3 Token.Invalid) 3
    (some [Token.Character 0 97, Token.Character 1 98, Token.Character 2 99])
    rfl rfl

/-- Field extraction from an `eraseOut` equality. -/
theorem eraseOut_fields {s t : ScanState} (h : eraseOut s = eraseOut t) :
    s.output_index = t.output_index ∧ s.escaped = t.escaped ∧ s.stack = t.stack ∧
    s.function_stack_index = t.function_stack_index ∧
    s.function_arg_begin_stack_index = t.function_arg_begin_stack_index ∧
    s.function_name_begin = t.function_name_begin := by
  refine ⟨?_, ?_, ?_, ?_, ?_, ?_⟩
  · have h2 := congrArg ScanState.output_index h; exact h2
  · have h2 := congrArg ScanState.escaped h; exact h2
  · have h2 := congrArg ScanState.stack h; exact h2
  · have h2 := congrArg ScanState.function_stack_index h; exact h2
  · have h2 := congrArg ScanState.function_arg_begin_stack_index h; exact h2
  · have h2 := congrArg ScanState.function_name_begin h; exact h2

/-- Case description of one successful `scanStep`: the nine branches of the
loop body, each recording how the control fields evolve (the output buffer is
abstracted away). -/
theorem scanStep_shape {input : List Byte} {i : Nat} {ch : Byte} {s s1 : ScanState}
    (h : scanStep input i ch s = .ok s1) :
    s1.stack.length = s.stack.length ∧
    ((s.function_name_begin = none ∧ s.escaped = true ∧
        s1.function_name_begin = none ∧ s1.escaped = false ∧
        s1.stack = s.stack ∧
        s1.function_stack_index = s.function_stack_index ∧
        s1.function_arg_begin_stack_index = s.function_arg_begin_stack_index ∧
        s1.output_index ≤ s.output_index + 2 ∧ s.output_index < s1.output_index) ∨
      (s.function_name_begin = none ∧ s.escaped = false ∧ ch = 92 ∧
        s1 = { s with escaped := true }) ∨
      (s.function_name_begin = none ∧ s.escaped = false ∧ ch = 123 ∧
        s1 = { s with function_name_begin := some (i + 1) }) ∨
      (s.function_name_begin = none ∧ s.escaped = false ∧
        s1.function_name_begin = none ∧ s1.escaped = false ∧
        s1.stack = s.stack ∧
        s1.function_stack_index = s.function_stack_index ∧
        s1.function_arg_begin_stack_index = s.function_arg_begin_stack_index ∧
        s1.output_index = s.output_index + 1) ∨
      (s.function_name_begin = none ∧ s.escaped = false ∧
        1 ≤ s.function_stack_index ∧
        s1.function_name_begin = none ∧ s1.escaped = false ∧
        s1.function_stack_index = s.function_stack_index ∧
        s1.function_arg_begin_stack_index = s.function_arg_begin_stack_index ∧
        s1.output_index = s.output_index + 1) ∨
      (s.function_name_begin = none ∧ s.escaped = false ∧ ch = 125 ∧
        1 ≤ s.function_stack_index ∧
        s1.function_name_begin = none ∧ s1.escaped = false ∧
        s1.function_stack_index = s.function_stack_index - 1 ∧
        s1.function_arg_begin_stack_index = s.function_arg_begin_stack_index + 1 ∧
        s1.output_index = s.output_index + 1) ∨
      (∃ v, s.function_name_begin = some v ∧ s1 = s) ∨
      (∃ v, s.function_name_begin = some v ∧ ch = 44 ∧
        s1.function_name_begin = none ∧ s1.escaped = s.escaped ∧
        s1.function_stack_index = s.function_stack_index + 1 ∧
        s1.function_arg_begin_stack_index = s.function_arg_begin_stack_index - 1 ∧
        s1.output_index = s.output_index + 1) ∨
      (∃ v, s.function_name_begin = some v ∧ ch = 125 ∧
        s1.function_name_begin = none ∧ s1.escaped = s.escaped ∧
        s1.function_stack_index = s.function_stack_index ∧
        s1.function_arg_begin_stack_index = s.function_arg_begin_stack_index ∧
        s1.output_index = s.output_index + 1)) := by
  cases hfnb : s.function_name_begin with
  | some v =>
      unfold scanStep at h
      simp only [hfnb] at h
      by_cases hch : ch = 44 ∨ ch = 125
      · rw [if_pos hch] at h
        by_cases hch2 : ch = 44
        · rw [if_pos hch2] at h
          simp only [Except.ok.injEq] at h
          rw [← h]
          refine ⟨by simp [send_output], Or.inr (Or.inr (Or.inr (Or.inr (Or.inr (Or.inr
            (Or.inr (Or.inl ⟨v, rfl, hch2, ?_, ?_, ?_, ?_, ?_⟩)))))))⟩ <;>
            simp [send_output]
        · rw [if_neg hch2] at h
          have hch125 : ch = 125 := by tauto
          simp only [Except.ok.injEq] at h
          rw [← h]
          refine ⟨by simp [send_output], Or.inr (Or.inr (Or.inr (Or.inr (Or.inr (Or.inr
            (Or.inr (Or.inr ⟨v, rfl, hch125, ?_, ?_, ?_, ?_, ?_⟩)))))))⟩ <;>
            simp [send_output]
      · rw [if_neg hch] at h
        simp only [Except.ok.injEq] at h
        rw [← h]
        exact ⟨rfl, Or.inr (Or.inr (Or.inr (Or.inr (Or.inr (Or.inr
          (Or.inl ⟨v, rfl, rfl⟩))))))⟩
  | none =>
      unfold scanStep at h
      simp only [hfnb] at h
      by_cases hesc : s.escaped = true
      · simp only [hesc, if_true] at h
        by_cases hch : ch = 123 ∨ ch = 125 ∨ ch = 44 ∨ ch = 92
        · rw [if_pos hch] at h
          simp only [Except.ok.injEq] at h
          rw [← h]
          refine ⟨by simp [send_output], Or.inl ⟨rfl, hesc, ?_, ?_, ?_, ?_, ?_, ?_, ?_⟩⟩ <;>
            simp [send_output, hfnb] <;> omega
        · rw [if_neg hch] at h
          simp only [Except.ok.injEq] at h
          rw [← h]
          refine ⟨by simp [send_output], Or.inl ⟨rfl, hesc, ?_, ?_, ?_, ?_, ?_, ?_, ?_⟩⟩ <;>
            simp [send_output, hfnb] <;> omega
      · rw [if_neg hesc] at h
        have hescf : s.escaped = false := eq_false_of_ne_true hesc
        by_cases hch92 : ch = 92
        · rw [if_pos hch92] at h
          simp only [Except.ok.injEq] at h
          rw [← h]
          exact ⟨rfl, Or.inr (Or.inl ⟨rfl, hescf, hch92, rfl⟩)⟩
        · rw [if_neg hch92] at h
          by_cases hch123 : ch = 123
          · rw [if_pos hch123] at h
            simp only [Except.ok.injEq] at h
            rw [← h]
            exact ⟨rfl, Or.inr (Or.inr (Or.inl ⟨rfl, hescf, hch123, rfl⟩))⟩
          · rw [if_neg hch123] at h
            by_cases hplain : s.function_stack_index = 0 ∨ (ch ≠ 44 ∧ ch ≠ 125)
            · rw [if_pos hplain] at h
              simp only [Except.ok.injEq] at h
              rw [← h]
              refine ⟨by simp [send_output], Or.inr (Or.inr (Or.inr (Or.inl
                ⟨rfl, hescf, ?_, ?_, ?_, ?_, ?_, ?_⟩)))⟩ <;> simp [send_output, hfnb, hescf]
            · rw [if_neg hplain] at h
              push_neg at hplain
              have hfsi : 1 ≤ s.function_stack_index := by omega
              cases hinc : incNumArgs s with
              | error e => simp only [hinc] at h; exact Except.noConfusion h
              | ok sa =>
                  simp only [hinc] at h
                  obtain ⟨ha1, ha2, ha3, ha4, ha5, ha6⟩ := eraseOut_fields (incNumArgs_eraseEq hinc)
                  cases hpatch : patchPendingMarker sa with
                  | error e => simp only [hpatch] at h; exact Except.noConfusion h
                  | ok sb =>
                      simp only [hpatch] at h
                      obtain ⟨hb1, hb2, hb3, hb4, hb5, hb6⟩ :=
                        eraseOut_fields (patchPendingMarker_eraseEq hpatch)
                      by_cases hch125 : ch = 125
                      · rw [if_pos hch125] at h
                        obtain ⟨hd1, hd2, hd3, hd4, hd5, hd6⟩ :=
                          eraseOut_fields (closeFunction_eraseEq h)
                        simp only [send_output] at hd1 hd2 hd3 hd4 hd5 hd6
                        refine ⟨?_, Or.inr (Or.inr (Or.inr (Or.inr (Or.inr (Or.inl
                          ⟨rfl, hescf, hch125, hfsi, ?_, ?_, ?_, ?_, ?_⟩)))))⟩
                        · rw [hd3]; simp [hb3, ha3]
                        · rw [hd6]; simp [hb6, ha6, hfnb]
                        · rw [hd2]; simp [hb2, ha2, hescf]
                        · rw [hd4]; simp [hb4, ha4]
                        · rw [hd5]; simp [hb5, ha5]
                        · rw [hd1]; simp [hb1, ha1]
                      · rw [if_neg hch125] at h
                        simp only [Except.ok.injEq] at h
                        rw [← h]
                        refine ⟨?_, Or.inr (Or.inr (Or.inr (Or.inr (Or.inl
                          ⟨rfl, hescf, hfsi, ?_, ?_, ?_, ?_, ?_⟩))))⟩ <;>
                          simp [send_output, ha1, ha2, ha3, ha4, ha5, ha6,
                            hb1, hb2, hb3, hb4, hb5, hb6, hfnb, hescf]

/-- The arithmetic invariant of the two scratch stacks: the forward stack
(depth `function_stack_index`) and the backward stack (top index
`function_arg_begin_stack_index`) together always account for the whole
scratch buffer, and each open frame consumed at least the two bytes
`\x7b` and `,`, so twice the depth is bounded by the number of consumed
bytes. -/
def StackInv (i : Nat) (s : ScanState) : Prop :=
  s.function_arg_begin_stack_index + s.function_stack_index = s.stack.length ∧
  (match s.function_name_begin with
   | none => 2 * s.function_stack_index ≤ i
   | some v => 1 ≤ v ∧ v ≤ i ∧ 2 * s.function_stack_index + 1 ≤ v)

/-- The output-count invariant: at most one token per consumed byte on
average, with one token of credit while an escape is pending. -/
def OiInv (i : Nat) (s : ScanState) : Prop :=
  (s.escaped = true → s.function_name_begin = none) ∧
  s.output_index + (if s.escaped = true then 1 else 0) ≤ i

theorem scanStep_stackInv {input : List Byte} {i : Nat} {ch : Byte} {s s1 : ScanState}
    (h : scanStep input i ch s = .ok s1) (hilen : i < s.stack.length)
    (hinv : StackInv i s) : StackInv (i + 1) s1 := by
  obtain ⟨hlen, hcase⟩ := scanStep_shape h
  obtain ⟨hsum, hmode⟩ := hinv
  rcases hcase with hc | hc | hc | hc | hc | hc | hc | hc | hc
  · obtain ⟨h1, h2, h3, h4, h5, h6, h7, h8, h9⟩ := hc
    simp only [h1] at hmode
    refine ⟨by rw [h6, h7, hlen]; exact hsum, ?_⟩
    simp only [StackInv, h3, h6]
    omega
  · obtain ⟨h1, h2, h3, h4⟩ := hc
    subst h4
    simp only [h1] at hmode
    exact ⟨hsum, by simp only [h1]; omega⟩
  · obtain ⟨h1, h2, h3, h4⟩ := hc
    subst h4
    simp only [h1] at hmode
    exact ⟨hsum, by simp only []; omega⟩
  · obtain ⟨h1, h2, h3, h4, h5, h6, h7, h8⟩ := hc
    simp only [h1] at hmode
    refine ⟨by rw [h6, h7, hlen]; exact hsum, ?_⟩
    simp only [h3]
    omega
  · obtain ⟨h1, h2, h3, h4, h5, h6, h7, h8⟩ := hc
    simp only [h1] at hmode
    refine ⟨by rw [h6, h7, hlen]; exact hsum, ?_⟩
    simp only [h4]
    omega
  · obtain ⟨h1, h2, h3, h4, h5, h6, h7, h8, h9⟩ := hc
    simp only [h1] at hmode
    refine ⟨by rw [h7, h8, hlen]; omega, ?_⟩
    simp only [h5]
    omega
  · obtain ⟨v, h1, h2⟩ := hc
    subst h2
    simp only [h1] at hmode
    exact ⟨hsum, by simp only [h1]; omega⟩
  · obtain ⟨v, h1, h2, h3, h4, h5, h6, h7⟩ := hc
    simp only [h1] at hmode
    refine ⟨by rw [h5, h6, hlen]; omega, ?_⟩
    simp only [h3]
    omega
  · obtain ⟨v, h1, h2, h3, h4, h5, h6, h7⟩ := hc
    simp only [h1] at hmode
    refine ⟨by rw [h5, h6, hlen]; exact hsum, ?_⟩
    simp only [h3]
    omega

theorem scanStep_oiInv {input : List Byte} {i : Nat} {ch : Byte} {s s1 : ScanState}
    (h : scanStep input i ch s = .ok s1) (hinv : OiInv i s) : OiInv (i + 1) s1 := by
  obtain ⟨hlen, hcase⟩ := scanStep_shape h
  obtain ⟨hescmode, hbound⟩ := hinv
  rcases hcase with hc | hc | hc | hc | hc | hc | hc | hc | hc
  · obtain ⟨h1, h2, h3, h4, h5, h6, h7, h8, h9⟩ := hc
    simp only [h2, if_true] at hbound
    exact ⟨fun he => absurd he (by rw [h4]; simp), by simp [h4]; omega⟩
  · obtain ⟨h1, h2, h3, h4⟩ := hc
    subst h4
    simp only [h2, if_false] at hbound
    exact ⟨fun _ => h1, by simp only [if_true]; omega⟩
  · obtain ⟨h1, h2, h3, h4⟩ := hc
    subst h4
    simp only [h2, if_false] at hbound
    refine ⟨fun he => absurd (he : s.escaped = true) (by rw [h2]; simp), ?_⟩
    simp only [h2, if_false]
    omega
  · obtain ⟨h1, h2, h3, h4, h5, h6, h7, h8⟩ := hc
    simp only [h2, if_false] at hbound
    exact ⟨fun he => absurd he (by rw [h4]; simp), by simp only [h4, if_false]; omega⟩
  · obtain ⟨h1, h2, h3, h4, h5, h6, h7, h8⟩ := hc
    simp only [h2, if_false] at hbound
    exact ⟨fun he => absurd he (by rw [h5]; simp), by simp only [h5, if_false]; omega⟩
  · obtain ⟨h1, h2, h3, h4, h5, h6, h7, h8, h9⟩ := hc
    simp only [h2, if_false] at hbound
    exact ⟨fun he => absurd he (by rw [h6]; simp), by simp only [h6, if_false]; omega⟩
  · obtain ⟨v, h1, h2⟩ := hc
    have hesc : s.escaped = false := by
      cases he : s.escaped with
      | true => rw [hescmode he] at h1; exact Option.noConfusion h1
      | false => rfl
    simp [hesc] at hbound
    rw [h2]
    exact ⟨fun he => absurd he (by rw [hesc]; simp), by simp [hesc]; omega⟩
  · obtain ⟨v, h1, h2, h3, h4, h5, h6, h7⟩ := hc
    have hesc : s.escaped = false := by
      cases he : s.escaped with
      | true => rw [hescmode he] at h1; exact Option.noConfusion h1
      | false => rfl
    simp [hesc] at hbound
    refine ⟨fun _ => h3, ?_⟩
    simp [h4, hesc]
    omega
  · obtain ⟨v, h1, h2, h3, h4, h5, h6, h7⟩ := hc
    have hesc : s.escaped = false := by
      cases he : s.escaped with
      | true => rw [hescmode he] at h1; exact Option.noConfusion h1
      | false => rfl
    simp [hesc] at hbound
    refine ⟨fun _ => h3, ?_⟩
    simp [h4, hesc]
    omega

theorem scanLoop_stackInv {input : List Byte} :
    ∀ (rest : List Byte) (i : Nat) (s s1 : ScanState),
    scanLoop input i rest s = .ok s1 → i + rest.length ≤ s.stack.length →
    StackInv i s → StackInv (i + rest.length) s1 ∧ s1.stack.length = s.stack.length := by
  intro rest
  induction rest with
  | nil =>
      intro i s s1 h hle hinv
      simp only [scanLoop, Except.ok.injEq] at h
      rw [← h]
      exact ⟨by simpa using hinv, rfl⟩
  | cons ch rest ih =>
      intro i s s1 h hle hinv
      simp only [scanLoop] at h
      cases hstep : scanStep input i ch s with
      | error e => rw [hstep] at h; exact Except.noConfusion h
      | ok sa =>
          rw [hstep] at h
          have hlen := (scanStep_shape hstep).1
          have hinv1 := scanStep_stackInv hstep (by simp at hle; omega) hinv
          obtain ⟨hfin, hlen2⟩ := ih (i + 1) sa s1 h (by rw [hlen]; simp at hle ⊢; omega) hinv1
          refine ⟨by simpa [Nat.add_assoc, Nat.add_comm 1 rest.length] using hfin, by rw [hlen2, hlen]⟩

theorem scanLoop_oiInv {input : List Byte} :
    ∀ (rest : List Byte) (i : Nat) (s s1 : ScanState),
    scanLoop input i rest s = .ok s1 → OiInv i s → OiInv (i + rest.length) s1 := by
  intro rest
  induction rest with
  | nil =>
      intro i s s1 h hinv
      simp only [scanLoop, Except.ok.injEq] at h
      rw [← h]
      simpa using hinv
  | cons ch rest ih =>
      intro i s s1 h hinv
      simp only [scanLoop] at h
      cases hstep : scanStep input i ch s with
      | error e => rw [hstep] at h; exact Except.noConfusion h
      | ok sa =>
          rw [hstep] at h
          have hinv1 := scanStep_oiInv hstep hinv
          have hfin := ih (i + 1) sa s1 h hinv1
          simpa [Nat.add_assoc, Nat.add_comm 1 rest.length] using hfin

/-- A successful `finishTokenize` returns exactly the running output count and
the final buffer. -/
theorem finishTokenize_ok {s : ScanState} {n : Nat} {res : Option (List Token)}
    (h : finishTokenize s = .ok (n, res)) : n = s.output_index ∧ res = s.output := by
  unfold finishTokenize at h
  cases hfnb : s.function_name_begin with
  | some v => simp only [hfnb] at h; exact Except.noConfusion h
  | none =>
      simp only [hfnb] at h
      by_cases hfsi : s.function_stack_index ≠ 0
      · rw [if_pos hfsi] at h
        cases hout : s.output with
        | none =>
            simp only [hout] at h
            simp only [Except.ok.injEq, Prod.mk.injEq] at h
            exact ⟨h.1.symm, h.2.symm⟩
        | some o =>
            simp only [hout] at h
            cases htok : o.getD (s.stack.getD (s.function_stack_index - 1) 0)
                Token.Invalid with
            | Function a b c d e => simp only [htok] at h; exact Except.noConfusion h
            | Invalid => simp only [htok] at h; exact Except.noConfusion h
            | Character a b => simp only [htok] at h; exact Except.noConfusion h
            | FunctionArgEnd a b => simp only [htok] at h; exact Except.noConfusion h
      · rw [if_neg hfsi] at h
        simp only [Except.ok.injEq, Prod.mk.injEq] at h
        exact ⟨h.1.symm, h.2.symm⟩

/-- Claim C10: whenever `tokenize` succeeds (either pass), the returned token
count is at most the input length. -/
theorem tokenize_count_le_length (input : List Byte) (stack : List Nat)
    (out : Option (List Token)) (n : Nat) (res : Option (List Token))
    (h : tokenize input stack out = .ok (n, res)) : n ≤ input.length := by
  unfold tokenize at h
  cases hloop : scanLoop input 0 input (initState stack out) with
  | error e => rw [hloop] at h; exact Except.noConfusion h
  | ok sf =>
      rw [hloop] at h
      have hinv : OiInv (0 + input.length) sf := by
        refine scanLoop_oiInv input 0 (initState stack out) sf hloop ⟨?_, ?_⟩
        · intro he; exact Bool.noConfusion he
        · simp [initState]
      obtain ⟨hn, hres⟩ := finishTokenize_ok h
      obtain ⟨hA, hB⟩ := hinv
      rw [hn]
      by_cases he : sf.escaped = true <;> simp [he] at hB <;> omega

/-- Witness for C10 at input `"a"`. -/
theorem tokenize_count_le_length_witness : (1 : Nat) ≤ ([97] : List Byte).length :=
  tokenize_count_le_length [97] [0] none 1 none rfl

/-- Claim C7: in every reachable state of a call to `tokenize` with a scratch
buffer whose length equals the input length (after any number `i` of consumed
bytes, in either pass), the forward stack top index never exceeds the backward
stack top index, the two indices always sum to the input length (so the two
stacks sharing one input-length buffer never collide and the
`debug_assert!` at the push site holds), and all the scratch-buffer indices
the next iteration can access are in bounds. -/
theorem stacks_never_collide (input : List Byte) (stack : List Nat)
    (out0 : Option (List Token)) (i : Nat) (s : ScanState)
    (hlen : stack.length = input.length) (hi : i ≤ input.length)
    (hs : scanLoop input 0 (input.take i) (initState stack out0) = .ok s) :
    s.function_stack_index ≤ s.function_arg_begin_stack_index ∧
    s.function_stack_index + s.function_arg_begin_stack_index = input.length ∧
    2 * s.function_stack_index ≤ i ∧
    s.stack.length = input.length ∧
    (1 ≤ s.function_stack_index → s.function_stack_index - 1 < input.length ∧
      s.function_arg_begin_stack_index < input.length) ∧
    (∀ v, s.function_name_begin = some v → i < input.length →
      s.function_stack_index < input.length ∧ 1 ≤ s.function_arg_begin_stack_index ∧
      s.function_arg_begin_stack_index - 1 < input.length) := by
  have htk : (input.take i).length = i := by
    rw [List.length_take]
    omega
  have hinit : StackInv 0 (initState stack out0) := by
    refine ⟨by simp [initState], by simp [initState]⟩
  obtain ⟨hinv, hslen⟩ := scanLoop_stackInv (input.take i) 0 (initState stack out0) s hs
    (by simp only [initState]; rw [htk, hlen]; omega) hinit
  rw [htk] at hinv
  obtain ⟨hsum, hmode⟩ := hinv
  simp only [initState] at hslen
  rw [hslen, hlen] at hsum
  cases hfnb : s.function_name_begin with
  | none =>
      simp only [hfnb] at hmode
      refine ⟨by omega, by omega, by omega, by rw [hslen, hlen], by omega, ?_⟩
      intro v hv
      exact absurd hv (by simp)
  | some v =>
      simp only [hfnb] at hmode
      refine ⟨by omega, by omega, by omega, by rw [hslen, hlen], by omega, ?_⟩
      intro w hw hilt
      have hvw : v = w := by injection hw
      omega

/-- Witness for C7 at input `"\x7ba,"` after consuming all three bytes: one
frame is open, the forward top index 1 does not exceed the backward top index
2, and all access indices are in bounds. -/
theorem stacks_never_collide_witness :
    (1 : Nat) ≤ 2 ∧ 1 + 2 = ([123, 97, 44] : List Byte).length ∧
    2 * 1 ≤ 3 ∧ ([0, 0, 0] : List Nat).length = ([123, 97, 44] : List Byte).length ∧
    ((1 : Nat) ≤ 1 → (1 : Nat) - 1 < ([123, 97, 44] : List Byte).length ∧
      (2 : Nat) < ([123, 97, 44] : List Byte).length) ∧
    (∀ v : Nat, (none : Option Nat) = some v → 3 < ([123, 97, 44] : List Byte).length →
      (1 : Nat) < ([123, 97, 44] : List Byte).length ∧ (1 : Nat) ≤ 2 ∧
      (2 : Nat) - 1 < ([123, 97, 44] : List Byte).length) :=
  stacks_never_collide [123, 97, 44] [0, 0, 0] none 3
    ⟨none, 1, false, [0, 0, 0], 1, 2, none⟩ rfl (by decide) rfl

/-- Claim C4: in normal-text mode with the `escaped` flag set at byte index
`i`, a byte in `\x7b \x7d , \\` yields exactly one `Character` token at
offset `i - 1` carrying that byte, and any other byte yields two `Character`
tokens in order: the backslash at `i - 1`, then the byte itself at `i`.
`send_output` appends one token; the resulting state shows the emitted
tokens and the cleared flag. -/
theorem escaped_byte_emission (input : List Byte) (i : Nat) (ch : Byte)
    (s : ScanState) (hfnb : s.function_name_begin = none)
    (hesc : s.escaped = true) (hi : 1 ≤ i) :
    ((ch = 123 ∨ ch = 125 ∨ ch = 44 ∨ ch = 92) →
      scanStep input i ch s =
        .ok { send_output (.Character (i - 1) ch) s with escaped := false }) ∧
    (¬(ch = 123 ∨ ch = 125 ∨ ch = 44 ∨ ch = 92) →
      scanStep input i ch s =
        .ok { send_output (.Character i ch)
          (send_output (.Character (i - 1) 92) s) with escaped := false }) := by
  constructor
  · intro hch
    unfold scanStep
    simp only [hfnb, hesc, if_true]
    rw [if_pos hch]
  · intro hch
    unfold scanStep
    simp only [hfnb, hesc, if_true]
    rw [if_neg hch]

/-- Witness for C4 at `i = 1` with the valid escape `\x7b` and the invalid
escape `a`, starting from the state reached after consuming `"\\"`. -/
theorem escaped_byte_emission_witness :
    ((123 = 123 ∨ 123 = 125 ∨ 123 = 44 ∨ (123 : Byte) = 92) →
      scanStep [92, 123] 1 123 ⟨none, 0, true, [0, 0], 0, 2, none⟩ =
        .ok { send_output (.Character 0 123) ⟨none, 0, true, [0, 0], 0, 2, none⟩ with
          escaped := false }) ∧
    (¬(97 = 123 ∨ 97 = 125 ∨ 97 = 44 ∨ (97 : Byte) = 92) →
      scanStep [92, 97] 1 97 ⟨none, 0, true, [0, 0], 0, 2, none⟩ =
        .ok { send_output (.Character 1 97)
          (send_output (.Character 0 92) ⟨none, 0, true, [0, 0], 0, 2, none⟩) with
          escaped := false }) :=
  ⟨(escaped_byte_emission [92, 123] 1 123 ⟨none, 0, true, [0, 0], 0, 2, none⟩
      rfl rfl (by decide)).1,
    (escaped_byte_emission [92, 97] 1 97 ⟨none, 0, true, [0, 0], 0, 2, none⟩
      rfl rfl (by decide)).2⟩

/-- Claim C8: an unescaped backslash consumed in normal-text mode only sets
the `escaped` flag: no token is emitted and `output_index` does not move; and
the end-of-input checks (`finishTokenize`) do not inspect `escaped`, so a
trailing backslash contributes neither a token nor an error to either pass. -/
theorem trailing_backslash_dropped (input : List Byte) (i : Nat) (s : ScanState)
    (hfnb : s.function_name_begin = none) (hesc : s.escaped = false) :
    scanStep input i 92 s = .ok { s with escaped := true } ∧
    ({ s with escaped := true } : ScanState).output = s.output ∧
    ({ s with escaped := true } : ScanState).output_index = s.output_index ∧
    finishTokenize { s with escaped := true } = finishTokenize s := by
  refine ⟨?_, rfl, rfl, rfl⟩
  unfold scanStep
  simp only [hfnb]
  rw [if_neg (show ¬(s.escaped = true) by simp [hesc]), if_true]

/-- Witness for C8 at the state reached after consuming `"a"` of the input
`"a\\"`. -/
theorem trailing_backslash_dropped_witness :
    scanStep [97, 92] 1 92 ⟨none, 1, false, [0, 0], 0, 2, none⟩ =
      .ok { (⟨none, 1, false, [0, 0], 0, 2, none⟩ : ScanState) with escaped := true } ∧
    ({ (⟨none, 1, false, [0, 0], 0, 2, none⟩ : ScanState) with
      escaped := true } : ScanState).output =
      (⟨none, 1, false, [0, 0], 0, 2, none⟩ : ScanState).output ∧
    ({ (⟨none, 1, false, [0, 0], 0, 2, none⟩ : ScanState) with
      escaped := true } : ScanState).output_index =
      (⟨none, 1, false, [0, 0], 0, 2, none⟩ : ScanState).output_index ∧
    finishTokenize { (⟨none, 1, false, [0, 0], 0, 2, none⟩ : ScanState) with
      escaped := true } = finishTokenize ⟨none, 1, false, [0, 0], 0, 2, none⟩ :=
  trailing_backslash_dropped [97, 92] 1 ⟨none, 1, false, [0, 0], 0, 2, none⟩ rfl rfl

/-! ### The structural invariant of the filling pass

The scratch buffer holds two stacks: forward entry `j` (at scratch index `j`)
is the output index of the `Function` token of the `j`-th open frame;
backward entry `j` (at scratch index `len - 1 - j`) is the output index of
that frame's pending marker, the most recent token whose
`first_arg_delta`/`arg_delta` field is still unset. -/

/-- Ordering of the spine: each frame's marker lies at or after its function
token and before the write position, and frames are strictly nested. -/
def OrdInv (len fsi oi : Nat) (st : List Nat) : Prop :=
  ∀ j, j < fsi → st.getD j 0 ≤ st.getD (len - 1 - j) 0 ∧
    st.getD (len - 1 - j) 0 < oi ∧
    ∀ j2, j < j2 → j2 < fsi → st.getD (len - 1 - j) 0 < st.getD j2 0

/-- Every open frame's forward entry holds a `Function` token with `delta`
still 0, opened at a `\x7b` byte; its argument chain so far has exactly
`num_args` markers and ends at the frame's pending marker (when `num_args` is
0 the pending marker is the function itself and `first_arg_delta` is unset). -/
def OpenInv (input : List Byte) (len fsi : Nat) (st : List Nat) (o : List Token) : Prop :=
  ∀ j, j < fsi → ∃ off nm na fad,
    o.getD (st.getD j 0) Token.Invalid = .Function off nm na 0 fad ∧
    input.getD off 0 = 123 ∧
    (match fad with
     | none => na = 0 ∧ st.getD (len - 1 - j) 0 = st.getD j 0
     | some dd => 0 < dd ∧ ArgChain o (st.getD j 0 + dd) na (st.getD (len - 1 - j) 0))

/-- Every already-written slot holds a real token. -/
def NoInvalidBelow (oi : Nat) (o : List Token) : Prop :=
  ∀ k, k < oi → o.getD k Token.Invalid ≠ Token.Invalid

/-- Every `Function` token not on the forward stack is finalized: either a
zero-argument function (`delta = 1`, no first argument), or a function whose
argument chain has exactly `num_args` markers, lies inside its `delta` span,
and is disjoint from the whole current spine. -/
def ClosedInv (len fsi oi : Nat) (st : List Nat) (o : List Token) : Prop :=
  ∀ k, k < oi → (∀ j, j < fsi → st.getD j 0 ≠ k) →
  ∀ off nm na d fad, o.getD k Token.Invalid = .Function off nm na d fad →
  (match fad with
   | none => na = 0 ∧ d = 1
   | some dd => 0 < dd ∧ 2 ≤ d ∧ k + d ≤ oi ∧ ArgChain o (k + dd) na (k + d - 1) ∧
     ∀ j, j < fsi → (st.getD (len - 1 - j) 0 < k ∨ k + d ≤ st.getD (len - 1 - j) 0) ∧
       (st.getD j 0 < k ∨ k + d ≤ st.getD j 0))

theorem ordInv_oi_mono {len fsi oi oi2 : Nat} {st : List Nat}
    (h : OrdInv len fsi oi st) (hle : oi ≤ oi2) : OrdInv len fsi oi2 st :=
  fun j hj => ⟨(h j hj).1, Nat.lt_of_lt_of_le (h j hj).2.1 hle, (h j hj).2.2⟩

theorem openInv_set_hi {input : List Byte} {len fsi oi m : Nat} {st : List Nat}
    {o : List Token} {t : Token} (h : OpenInv input len fsi st o)
    (hord : OrdInv len fsi oi st) (hm : oi ≤ m) :
    OpenInv input len fsi st (o.set m t) := by
  intro j hj
  obtain ⟨off, nm, na, fad, htok, hoff, hrest⟩ := h j hj
  obtain ⟨h1, h2, h3⟩ := hord j hj
  refine ⟨off, nm, na, fad, ?_, hoff, ?_⟩
  · rw [getD_set_ne _ _ (by omega : m ≠ st.getD j 0)]
    exact htok
  · cases fad with
    | none => exact hrest
    | some dd =>
        obtain ⟨hdd, hchain⟩ := hrest
        exact ⟨hdd, hchain.set_outside (Or.inr (by omega))⟩

theorem noInvalidBelow_set {oi : Nat} {o : List Token} {m : Nat} {t : Token}
    (h : NoInvalidBelow oi o) (ht : t ≠ Token.Invalid) :
    NoInvalidBelow oi (o.set m t) := by
  intro k hk
  by_cases hkm : m = k
  · subst hkm
    by_cases hml : m < o.length
    · rw [getD_set_self _ _ hml]; exact ht
    · rw [List.set_eq_of_length_le (by omega)]
      exact h m hk
  · rw [getD_set_ne _ _ hkm]
    exact h k hk

theorem noInvalidBelow_append {oi : Nat} {o : List Token} {t : Token}
    (h : NoInvalidBelow oi o) (ht : t ≠ Token.Invalid) (hlt : oi < o.length) :
    NoInvalidBelow (oi + 1) (o.set oi t) := by
  intro k hk
  by_cases hkm : k = oi
  · subst hkm
    rw [getD_set_self _ _ hlt]
    exact ht
  · rw [getD_set_ne _ _ (fun he => hkm he.symm)]
    exact h k (by omega)

theorem closedInv_append_non_fn {len fsi oi : Nat} {st : List Nat} {o : List Token}
    {t : Token} (h : ClosedInv len fsi oi st o)
    (ht : ∀ off nm na d fad, t ≠ .Function off nm na d fad) :
    ClosedInv len fsi (oi + 1) st (o.set oi t) := by
  intro k hk hne off nm na d fad htok
  by_cases hkm : k = oi
  · subst hkm
    by_cases hml : k < o.length
    · rw [getD_set_self _ _ hml] at htok
      exact absurd htok (ht off nm na d fad)
    · rw [List.set_eq_of_length_le (by omega)] at htok
      exact absurd (lt_length_of_getD_ne (l := o) (k := k) (d := Token.Invalid)
        (by rw [htok]; intro hc; cases hc)) hml
  · rw [getD_set_ne _ _ (fun he => hkm he.symm)] at htok
    have hold := h k (by omega) hne off nm na d fad htok
    cases fad with
    | none => exact hold
    | some dd =>
        obtain ⟨h1, h2, h3, h4, h5⟩ := hold
        exact ⟨h1, h2, by omega, h4.set_outside (Or.inr (by omega)), h5⟩

theorem closedInv_append_zero_fn {len fsi oi : Nat} {st : List Nat} {o : List Token}
    {offt : Nat} {nmt : List Byte} (h : ClosedInv len fsi oi st o) :
    ClosedInv len fsi (oi + 1) st (o.set oi (.Function offt nmt 0 1 none)) := by
  intro k hk hne off nm na d fad htok
  by_cases hkm : k = oi
  · subst hkm
    by_cases hml : k < o.length
    · rw [getD_set_self _ _ hml] at htok
      injection htok with e1 e2 e3 e4 e5
      subst e3; subst e4; subst e5
      exact ⟨rfl, rfl⟩
    · rw [List.set_eq_of_length_le (by omega)] at htok
      exact absurd (lt_length_of_getD_ne (l := o) (k := k) (d := Token.Invalid)
        (by rw [htok]; intro hc; cases hc)) hml
  · rw [getD_set_ne _ _ (fun he => hkm he.symm)] at htok
    have hold := h k (by omega) hne off nm na d fad htok
    cases fad with
    | none => exact hold
    | some dd =>
        obtain ⟨h1, h2, h3, h4, h5⟩ := hold
        exact ⟨h1, h2, by omega, h4.set_outside (Or.inr (by omega)), h5⟩

/-- The full invariant carried through the filling pass: `N` is the output
buffer capacity, `i` the number of consumed bytes, `o` the current buffer
contents. -/
structure FillInv (input : List Byte) (N i : Nat) (o : List Token) (s : ScanState) : Prop where
  houtput : s.output = some o
  holen : o.length = N
  hslen : s.stack.length = input.length
  hfib : s.function_arg_begin_stack_index + s.function_stack_index = input.length
  hmode : match s.function_name_begin with
    | none => 2 * s.function_stack_index ≤ i
    | some v => 1 ≤ v ∧ v ≤ i ∧ 2 * s.function_stack_index + 1 ≤ v ∧
        input.getD (v - 1) 0 = 123
  hord : OrdInv input.length s.function_stack_index s.output_index s.stack
  hopen : OpenInv input input.length s.function_stack_index s.stack o
  hnoninv : NoInvalidBelow s.output_index o
  hclosed : ClosedInv input.length s.function_stack_index s.output_index s.stack o
  hfuture : ∃ szf, scanLoop input i (input.drop i) (eraseOut s) = .ok szf ∧
      szf.output_index ≤ N

/-- The sizing pass bounds the current write position of any state whose
remaining scan reaches the end of the buffer demand. -/
theorem future_bound {input : List Byte} {N i : Nat} {s : ScanState}
    (hf : ∃ szf, scanLoop input i (input.drop i) (eraseOut s) = .ok szf ∧
      szf.output_index ≤ N) : s.output_index ≤ N := by
  obtain ⟨szf, h1, h2⟩ := hf
  obtain ⟨t, ht, _, hmono⟩ := scanLoop_none (input.drop i) i (eraseOut s) rfl
  rw [ht] at h1
  injection h1 with h1
  subst h1
  simpa using Nat.le_trans hmono h2

theorem drop_step {input : List Byte} {i : Nat} (h : i < input.length) :
    input.drop i = input.getD i 0 :: input.drop (i + 1) := by
  rw [List.drop_eq_getElem_cons h, List.getD_eq_getElem _ _ h]

/-- Stepping the `hfuture` component along one consumed byte. -/
theorem future_step {input : List Byte} {N i : Nat} {ch : Byte} {s s1 : ScanState}
    (hi : i < input.length) (hch : input.getD i 0 = ch)
    (hstep : scanStep input i ch s = .ok s1)
    (hf : ∃ szf, scanLoop input i (input.drop i) (eraseOut s) = .ok szf ∧
      szf.output_index ≤ N) :
    ∃ szf, scanLoop input (i + 1) (input.drop (i + 1)) (eraseOut s1) = .ok szf ∧
      szf.output_index ≤ N := by
  obtain ⟨szf, h1, h2⟩ := hf
  rw [drop_step hi, hch] at h1
  simp only [scanLoop, scanStep_erase hstep] at h1
  exact ⟨szf, h1, h2⟩

@[simp] theorem send_output_output_index (t : Token) (s : ScanState) :
    (send_output t s).output_index = s.output_index + 1 := rfl

@[simp] theorem send_output_stack (t : Token) (s : ScanState) :
    (send_output t s).stack = s.stack := rfl

@[simp] theorem send_output_fsi (t : Token) (s : ScanState) :
    (send_output t s).function_stack_index = s.function_stack_index := rfl

@[simp] theorem send_output_fabsi (t : Token) (s : ScanState) :
    (send_output t s).function_arg_begin_stack_index =
      s.function_arg_begin_stack_index := rfl

@[simp] theorem send_output_fnb (t : Token) (s : ScanState) :
    (send_output t s).function_name_begin = s.function_name_begin := rfl

@[simp] theorem send_output_escaped (t : Token) (s : ScanState) :
    (send_output t s).escaped = s.escaped := rfl

theorem send_output_output {t : Token} {s : ScanState} {o : List Token}
    (h : s.output = some o) :
    (send_output t s).output = some (o.set s.output_index t) := by
  simp [send_output, h]

/-- The filling-pass invariant survives one step taken in name-collecting
mode. -/
theorem fillInv_step_name {input : List Byte} {N i : Nat} {ch : Byte} {o : List Token}
    {s : ScanState} {v : Nat} (hi : i < input.length) (hch : input.getD i 0 = ch)
    (inv : FillInv input N i o s) (hfnb : s.function_name_begin = some v) :
    ∃ s1 o1, scanStep input i ch s = .ok s1 ∧ FillInv input N (i + 1) o1 s1 := by
  obtain ⟨houtput, holen, hslen, hfib, hmode, hord, hopen, hnoninv, hclosed, hfuture⟩ := inv
  rw [hfnb] at hmode
  obtain ⟨hv1, hvi, hv2, hvbrace⟩ := hmode
  have hoiN : s.output_index ≤ N := future_bound hfuture
  by_cases hch4 : ch = 44 ∨ ch = 125
  · by_cases hch44 : ch = 44
    · -- a comma ends the name: push a new frame and emit the Function token
      have hstep : scanStep input i ch s = .ok (send_output
          (.Function (v - 1) (slice input v i) 0 0 none)
          { s with
            stack := (s.stack.set s.function_stack_index s.output_index).set
              (s.function_arg_begin_stack_index - 1) s.output_index,
            function_stack_index := s.function_stack_index + 1,
            function_arg_begin_stack_index := s.function_arg_begin_stack_index - 1,
            function_name_begin := none }) := by
        unfold scanStep
        simp only [hfnb]
        rw [if_pos hch4, if_pos hch44]
      refine ⟨_, o.set s.output_index (.Function (v - 1) (slice input v i) 0 0 none),
        hstep, ?_⟩
      have hfut := future_step hi hch hstep hfuture
      have hoi1 : s.output_index + 1 ≤ N := by
        have h2 := future_bound hfut
        simpa using h2
      have holt : s.output_index < o.length := by omega
      have hfsilt : s.function_stack_index < s.stack.length := by rw [hslen]; omega
      have hfablt : s.function_arg_begin_stack_index - 1 < s.stack.length := by
        rw [hslen]; omega
      have hfsifab : s.function_stack_index < s.function_arg_begin_stack_index - 1 := by
        omega
      have hbwdeq : input.length - 1 - s.function_stack_index =
          s.function_arg_begin_stack_index - 1 := by omega
      have hfwd_new : ((s.stack.set s.function_stack_index s.output_index).set
          (s.function_arg_begin_stack_index - 1) s.output_index).getD
          s.function_stack_index 0 = s.output_index := by
        rw [getD_set_ne _ _ (by omega), getD_set_self _ _ hfsilt]
      have hbwd_new : ((s.stack.set s.function_stack_index s.output_index).set
          (s.function_arg_begin_stack_index - 1) s.output_index).getD
          (input.length - 1 - s.function_stack_index) 0 = s.output_index := by
        rw [hbwdeq]
        rw [getD_set_self (l := s.stack.set s.function_stack_index s.output_index) _ _
          (by simpa using hfablt)]
      have hfwd_old : ∀ j, j < s.function_stack_index →
          ((s.stack.set s.function_stack_index s.output_index).set
            (s.function_arg_begin_stack_index - 1) s.output_index).getD j 0 =
          s.stack.getD j 0 := by
        intro j hj
        rw [getD_set_ne _ _ (by omega), getD_set_ne _ _ (by omega)]
      have hbwd_old : ∀ j, j < s.function_stack_index →
          ((s.stack.set s.function_stack_index s.output_index).set
            (s.function_arg_begin_stack_index - 1) s.output_index).getD
            (input.length - 1 - j) 0 = s.stack.getD (input.length - 1 - j) 0 := by
        intro j hj
        rw [getD_set_ne _ _ (by omega), getD_set_ne _ _ (by omega)]
      refine ⟨send_output_output houtput, by simpa using holen, by simpa using hslen,
        by simp; omega, by simp; omega, ?_, ?_, ?_, ?_, by simpa using hfut⟩
      · -- OrdInv
        intro j hj
        simp only [send_output_stack, send_output_fsi, send_output_output_index] at hj ⊢
        by_cases hjtop : j = s.function_stack_index
        · subst hjtop
          rw [hfwd_new, hbwd_new]
          exact ⟨Nat.le_refl _, by omega, fun j2 hj2 hj2b => by omega⟩
        · have hjlt : j < s.function_stack_index := by omega
          obtain ⟨ho1, ho2, ho3⟩ := hord j hjlt
          rw [hfwd_old j hjlt, hbwd_old j hjlt]
          refine ⟨ho1, by omega, ?_⟩
          intro j2 hj2 hj2b
          by_cases hj2top : j2 = s.function_stack_index
          · subst hj2top
            rw [hfwd_new]
            omega
          · rw [hfwd_old j2 (by omega)]
            exact ho3 j2 hj2 (by omega)
      · -- OpenInv
        intro j hj
        simp only [send_output_stack, send_output_fsi] at hj ⊢
        by_cases hjtop : j = s.function_stack_index
        · subst hjtop
          refine ⟨v - 1, slice input v i, 0, none, ?_, by simpa using hvbrace, ?_⟩
          · rw [hfwd_new, getD_set_self _ _ holt]
          · exact ⟨rfl, by rw [hfwd_new, hbwd_new]⟩
        · have hjlt : j < s.function_stack_index := by omega
          obtain ⟨off, nm, na, fad, htok, hoff, hrest⟩ := hopen j hjlt
          obtain ⟨ho1, ho2, ho3⟩ := hord j hjlt
          refine ⟨off, nm, na, fad, ?_, hoff, ?_⟩
          · rw [hfwd_old j hjlt, getD_set_ne _ _ (by omega)]
            exact htok
          · cases fad with
            | none =>
                obtain ⟨hna, hbf⟩ := hrest
                exact ⟨hna, by rw [hfwd_old j hjlt, hbwd_old j hjlt]; exact hbf⟩
            | some dd =>
                obtain ⟨hdd, hchain⟩ := hrest
                rw [hfwd_old j hjlt, hbwd_old j hjlt]
                exact ⟨hdd, hchain.set_outside (Or.inr (by omega))⟩
      · -- NoInvalidBelow
        simp only [send_output_output_index]
        exact noInvalidBelow_append hnoninv (by intro hc; cases hc) holt
      · -- ClosedInv
        intro k hk hne off nm na d fad htok
        simp only [send_output_stack, send_output_fsi, send_output_output_index] at hk hne htok ⊢
        by_cases hkoi : k = s.output_index
        · exfalso
          exact hne s.function_stack_index (by omega) (by rw [hfwd_new]; omega)
        · have hklt : k < s.output_index := by omega
          rw [getD_set_ne _ _ (by omega : s.output_index ≠ k)] at htok
          have hne2 : ∀ j, j < s.function_stack_index → s.stack.getD j 0 ≠ k := by
            intro j hj
            rw [← hfwd_old j hj]
            exact hne j (by omega)
          have hold := hclosed k hklt hne2 off nm na d fad htok
          cases fad with
          | none => exact hold
          | some dd =>
              obtain ⟨h1, h2, h3, h4, h5⟩ := hold
              refine ⟨h1, h2, by omega, h4.set_outside (Or.inr (by omega)), ?_⟩
              intro j hj
              by_cases hjtop : j = s.function_stack_index
              · subst hjtop
                rw [hbwd_new, hfwd_new]
                omega
              · rw [hbwd_old j (by omega), hfwd_old j (by omega)]
                exact h5 j (by omega)
    · -- the byte is a closing brace: emit a completed zero-argument function
      have hch125 : ch = 125 := by tauto
      have hstep : scanStep input i ch s = .ok
          (send_output (.Function (v - 1) (slice input v i) 0 1 none)
            { s with function_name_begin := none }) := by
        unfold scanStep
        simp only [hfnb]
        rw [if_pos hch4, if_neg hch44]
      refine ⟨_, o.set s.output_index (.Function (v - 1) (slice input v i) 0 1 none),
        hstep, ?_⟩
      have hfut := future_step hi hch hstep hfuture
      have hoi1 : s.output_index + 1 ≤ N := by
        have h2 := future_bound hfut
        simpa using h2
      have holt : s.output_index < o.length := by omega
      refine ⟨send_output_output houtput, by simpa using holen, by simpa using hslen,
        by simpa using hfib, by simp; omega, ?_, ?_, ?_, ?_, by simpa using hfut⟩
      · simp only [send_output_stack, send_output_fsi, send_output_output_index]
        exact ordInv_oi_mono hord (by omega)
      · simp only [send_output_stack, send_output_fsi]
        exact openInv_set_hi hopen hord (Nat.le_refl _)
      · simp only [send_output_output_index]
        exact noInvalidBelow_append hnoninv (by intro hc; cases hc) holt
      · simp only [send_output_stack, send_output_fsi, send_output_output_index]
        exact closedInv_append_zero_fn hclosed
  · -- any other byte extends the name: the state is unchanged
    have hstep : scanStep input i ch s = .ok s := by
      unfold scanStep
      simp only [hfnb]
      rw [if_neg hch4]
    refine ⟨s, o, hstep, houtput, holen, hslen, hfib, ?_, hord, hopen, hnoninv, hclosed, ?_⟩
    · rw [hfnb]
      exact ⟨hv1, by omega, hv2, hvbrace⟩
    · exact future_step hi hch hstep hfuture

/-- The filling-pass invariant survives one step taken on an argument or
function delimiter (`,` or `\x7d` in normal mode with an open frame): the
forward-top `num_args` is bumped, the pending marker is patched, the marker
moves to the fresh `FunctionArgEnd`, and on `\x7d` the frame is popped and
its `delta` finalized. -/
theorem fillInv_step_delim {input : List Byte} {N i : Nat} {ch : Byte} {o : List Token}
    {s : ScanState} (hi : i < input.length) (hch : input.getD i 0 = ch)
    (inv : FillInv input N i o s) (hfnb : s.function_name_begin = none)
    (hesc : s.escaped = false) (h92 : ch ≠ 92) (h123 : ch ≠ 123)
    (hplain : ¬(s.function_stack_index = 0 ∨ (ch ≠ 44 ∧ ch ≠ 125))) :
    ∃ s1 o1, scanStep input i ch s = .ok s1 ∧ FillInv input N (i + 1) o1 s1 := by
  obtain ⟨houtput, holen, hslen, hfib, hmode, hord, hopen, hnoninv, hclosed, hfuture⟩ := inv
  simp only [hfnb] at hmode
  have hplain2 := hplain
  push_neg at hplain2
  obtain ⟨hfsi0, _⟩ := hplain2
  have hfsi : 1 ≤ s.function_stack_index := Nat.one_le_iff_ne_zero.mpr hfsi0
  have hoiN : s.output_index ≤ N := future_bound hfuture
  have hfsifab : s.function_stack_index < s.function_arg_begin_stack_index := by omega
  have hfabeq : input.length - 1 - (s.function_stack_index - 1) =
      s.function_arg_begin_stack_index := by omega
  have hfablt : s.function_arg_begin_stack_index < s.stack.length := by rw [hslen]; omega
  obtain ⟨off, nm, na, fad, htok, hoff, hrest⟩ :=
    hopen (s.function_stack_index - 1) (by omega)
  obtain ⟨hordF, hordB, _⟩ := hord (s.function_stack_index - 1) (by omega)
  rw [hfabeq] at hordF hordB
  have hinc : incNumArgs s = .ok { s with
      output := some (o.set (s.stack.getD (s.function_stack_index - 1) 0)
        (.Function off nm (na + 1) 0 fad)) } := by
    unfold incNumArgs
    simp only [houtput, htok]
  -- slot facts for the updated scratch buffer
  have hst2F : (s.stack.set s.function_arg_begin_stack_index s.output_index).getD
      (s.function_stack_index - 1) 0 = s.stack.getD (s.function_stack_index - 1) 0 :=
    getD_set_ne _ _ (by omega)
  have hst2B : (s.stack.set s.function_arg_begin_stack_index s.output_index).getD
      (input.length - 1 - (s.function_stack_index - 1)) 0 = s.output_index := by
    rw [hfabeq]
    exact getD_set_self _ _ hfablt
  have hst2_fwd_old : ∀ j, j < s.function_stack_index →
      (s.stack.set s.function_arg_begin_stack_index s.output_index).getD j 0 =
      s.stack.getD j 0 := by
    intro j hj
    exact getD_set_ne _ _ (by omega)
  have hst2_bwd_old : ∀ j, j < s.function_stack_index - 1 →
      (s.stack.set s.function_arg_begin_stack_index s.output_index).getD
        (input.length - 1 - j) 0 = s.stack.getD (input.length - 1 - j) 0 := by
    intro j hj
    exact getD_set_ne _ _ (by omega)
  cases fad with
  | none =>
      obtain ⟨hna, hBF⟩ := hrest
      subst hna
      simp only [Nat.zero_add] at hinc
      rw [hfabeq] at hBF
      have hFoi : s.stack.getD (s.function_stack_index - 1) 0 < s.output_index := by
        omega
      have hFltN : s.stack.getD (s.function_stack_index - 1) 0 < o.length := by omega
      have hoaF : (o.set (s.stack.getD (s.function_stack_index - 1) 0)
          (Token.Function off nm 1 0 none)).getD
          (s.stack.getD (s.function_stack_index - 1) 0) Token.Invalid
          = Token.Function off nm 1 0 none := getD_set_self _ _ hFltN
      have hpatch : patchPendingMarker { s with
          output := some (o.set (s.stack.getD (s.function_stack_index - 1) 0)
            (.Function off nm 1 0 none)) } = .ok { s with
          output := some (o.set (s.stack.getD (s.function_stack_index - 1) 0)
            (.Function off nm 1 0
              (some (s.output_index - s.stack.getD (s.function_stack_index - 1) 0)))) } := by
        unfold patchPendingMarker
        simp only [hBF, hoaF, List.set_set]
      have hobF : (o.set (s.stack.getD (s.function_stack_index - 1) 0)
          (.Function off nm 1 0
            (some (s.output_index - s.stack.getD (s.function_stack_index - 1) 0)))).getD
          (s.stack.getD (s.function_stack_index - 1) 0) Token.Invalid
          = .Function off nm 1 0
            (some (s.output_index - s.stack.getD (s.function_stack_index - 1) 0)) :=
        getD_set_self _ _ hFltN
      by_cases hch125 : ch = 125
      · -- close the frame
        have hstep : scanStep input i ch s = .ok { s with
            output := some (((o.set (s.stack.getD (s.function_stack_index - 1) 0)
                (.Function off nm 1 0 (some (s.output_index -
                  s.stack.getD (s.function_stack_index - 1) 0)))).set s.output_index
                (.FunctionArgEnd i none)).set
              (s.stack.getD (s.function_stack_index - 1) 0)
              (.Function off nm 1 (s.output_index + 1 -
                  s.stack.getD (s.function_stack_index - 1) 0)
                (some (s.output_index - s.stack.getD (s.function_stack_index - 1) 0)))),
            stack := s.stack.set s.function_arg_begin_stack_index s.output_index,
            output_index := s.output_index + 1,
            function_stack_index := s.function_stack_index - 1,
            function_arg_begin_stack_index := s.function_arg_begin_stack_index + 1 } := by
          unfold scanStep
          simp only [hfnb]
          rw [if_neg (show ¬(s.escaped = true) by simp [hesc]), if_neg h92, if_neg h123,
            if_neg hplain]
          have hinc2 := hinc
          have hpatch2 := hpatch
          simp only [hfnb] at hinc2 hpatch2
          simp only [hinc2, hpatch2]
          rw [if_pos hch125]
          unfold closeFunction
          have hodF : ((o.set (s.stack.getD (s.function_stack_index - 1) 0)
              (.Function off nm 1 0 (some (s.output_index -
                s.stack.getD (s.function_stack_index - 1) 0)))).set s.output_index
              (.FunctionArgEnd i none)).getD
              (s.stack.getD (s.function_stack_index - 1) 0) Token.Invalid
              = .Function off nm 1 0 (some (s.output_index -
                s.stack.getD (s.function_stack_index - 1) 0)) := by
            rw [getD_set_ne _ _ (by omega)]
            exact hobF
          simp only [send_output, Option.map_some', hst2F, hodF]
        refine ⟨_, ((o.set (s.stack.getD (s.function_stack_index - 1) 0)
            (.Function off nm 1 0 (some (s.output_index -
              s.stack.getD (s.function_stack_index - 1) 0)))).set s.output_index
            (.FunctionArgEnd i none)).set
          (s.stack.getD (s.function_stack_index - 1) 0)
          (.Function off nm 1 (s.output_index + 1 -
              s.stack.getD (s.function_stack_index - 1) 0)
            (some (s.output_index - s.stack.getD (s.function_stack_index - 1) 0))),
          hstep, ?_⟩
        have hfut := future_step hi hch hstep hfuture
        have hoi1 : s.output_index + 1 ≤ N := future_bound hfut
        have holt : s.output_index < o.length := by omega
        -- the fresh argument chain of the closed function: one marker, at
        -- the just-written FunctionArgEnd
        have hchain1 : ArgChain ((o.set (s.stack.getD (s.function_stack_index - 1) 0)
            (.Function off nm 1 0 (some (s.output_index -
              s.stack.getD (s.function_stack_index - 1) 0)))).set s.output_index
            (.FunctionArgEnd i none))
            (s.stack.getD (s.function_stack_index - 1) 0 +
              (s.output_index - s.stack.getD (s.function_stack_index - 1) 0)) 1
            s.output_index := by
          have hsum : s.stack.getD (s.function_stack_index - 1) 0 +
              (s.output_index - s.stack.getD (s.function_stack_index - 1) 0) =
              s.output_index := by omega
          rw [hsum]
          exact ArgChain.last s.output_index i (getD_set_self _ _ (by
            rw [List.length_set]; omega))
        have hchain2 : ArgChain (((o.set (s.stack.getD (s.function_stack_index - 1) 0)
            (.Function off nm 1 0 (some (s.output_index -
              s.stack.getD (s.function_stack_index - 1) 0)))).set s.output_index
            (.FunctionArgEnd i none)).set
            (s.stack.getD (s.function_stack_index - 1) 0)
            (.Function off nm 1 (s.output_index + 1 -
                s.stack.getD (s.function_stack_index - 1) 0)
              (some (s.output_index - s.stack.getD (s.function_stack_index - 1) 0))))
            (s.stack.getD (s.function_stack_index - 1) 0 +
              (s.output_index - s.stack.getD (s.function_stack_index - 1) 0)) 1
            s.output_index :=
          hchain1.set_outside (Or.inl (by omega))
        refine ⟨rfl, by simp [holen], by simp [hslen], by simp; omega,
          by simp [hfnb]; omega, ?_, ?_, ?_, ?_, by simpa using hfut⟩
        · -- OrdInv for the popped state
          intro j hj
          simp only at hj ⊢
          have hjlt : j < s.function_stack_index - 1 := hj
          obtain ⟨ho1, ho2, ho3⟩ := hord j (by omega)
          rw [hst2_fwd_old j (by omega), hst2_bwd_old j hjlt]
          refine ⟨ho1, by omega, ?_⟩
          intro j2 hj2 hj2b
          rw [hst2_fwd_old j2 (by omega)]
          exact ho3 j2 hj2 (by omega)
        · -- OpenInv for the popped state
          intro j hj
          simp only at hj ⊢
          have hjlt : j < s.function_stack_index - 1 := hj
          obtain ⟨off2, nm2, na2, fad2, htok2, hoff2, hrest2⟩ := hopen j (by omega)
          obtain ⟨ho1, ho2, ho3⟩ := hord j (by omega)
          have hjtop := ho3 (s.function_stack_index - 1) (by omega) (by omega)
          refine ⟨off2, nm2, na2, fad2, ?_, hoff2, ?_⟩
          · rw [hst2_fwd_old j (by omega),
              getD_set_ne _ _ (by omega : s.stack.getD (s.function_stack_index - 1) 0 ≠
                s.stack.getD j 0),
              getD_set_ne _ _ (by omega : s.output_index ≠ s.stack.getD j 0),
              getD_set_ne _ _ (by omega : s.stack.getD (s.function_stack_index - 1) 0 ≠
                s.stack.getD j 0)]
            exact htok2
          · cases fad2 with
            | none =>
                obtain ⟨hna2, hbf2⟩ := hrest2
                refine ⟨hna2, ?_⟩
                rw [hst2_fwd_old j (by omega), hst2_bwd_old j hjlt]
                exact hbf2
            | some dd2 =>
                obtain ⟨hdd2, hchain2b⟩ := hrest2
                rw [hst2_fwd_old j (by omega), hst2_bwd_old j hjlt]
                refine ⟨hdd2, ?_⟩
                have hc1 := hchain2b.set_outside
                  (t := .Function off nm 1 0 (some (s.output_index -
                    s.stack.getD (s.function_stack_index - 1) 0)))
                  (k := s.stack.getD (s.function_stack_index - 1) 0) (Or.inr (by omega))
                have hc2 := hc1.set_outside (t := .FunctionArgEnd i none)
                  (k := s.output_index) (Or.inr (by omega))
                exact hc2.set_outside (Or.inr (by omega))
        · -- NoInvalidBelow for the popped state
          simp only
          have h1 := noInvalidBelow_set (m := s.stack.getD (s.function_stack_index - 1) 0)
            hnoninv (t := .Function off nm 1 0 (some (s.output_index -
              s.stack.getD (s.function_stack_index - 1) 0))) (by intro hc; cases hc)
          have h2 := noInvalidBelow_append h1 (t := .FunctionArgEnd i none)
            (by intro hc; cases hc) (by rw [List.length_set]; omega)
          exact noInvalidBelow_set h2 (by intro hc; cases hc)
        · -- ClosedInv for the popped state
          intro k hk hne off3 nm3 na3 d3 fad3 htok3
          simp only at hk hne htok3 ⊢
          by_cases hkF : k = s.stack.getD (s.function_stack_index - 1) 0
          · -- the newly closed function
            subst hkF
            rw [getD_set_self _ _ (by rw [List.length_set, List.length_set]; omega)]
              at htok3
            injection htok3 with e1 e2 e3 e4 e5
            subst e3
            subst e4
            subst e5
            refine ⟨by omega, by omega, by omega, ?_, ?_⟩
            · have hd1 : s.stack.getD (s.function_stack_index - 1) 0 +
                  (s.output_index + 1 - s.stack.getD (s.function_stack_index - 1) 0) - 1 =
                  s.output_index := by omega
              rw [hd1]
              exact hchain2
            · intro j hj
              have hjtop := (hord j (by omega)).2.2 (s.function_stack_index - 1)
                (by omega) (by omega)
              obtain ⟨hoj1, hoj2, _⟩ := hord j (by omega)
              rw [hst2_fwd_old j (by omega), hst2_bwd_old j (by omega)]
              omega
          · by_cases hkoi : k = s.output_index
            · subst hkoi
              rw [getD_set_ne _ _ (fun he => hkF he.symm),
                getD_set_self _ _ (by rw [List.length_set]; omega)] at htok3
              cases htok3
            · have hklt : k < s.output_index := by omega
              rw [getD_set_ne _ _ (fun he => hkF he.symm),
                getD_set_ne _ _ (fun he => hkoi he.symm),
                getD_set_ne _ _ (fun he => hkF he.symm)] at htok3
              have hne2 : ∀ j, j < s.function_stack_index → s.stack.getD j 0 ≠ k := by
                intro j hj
                by_cases hjtop : j = s.function_stack_index - 1
                · subst hjtop
                  exact fun he => hkF (he.symm)
                · rw [← hst2_fwd_old j hj]
                  exact hne j (by omega)
              have hold := hclosed k hklt hne2 off3 nm3 na3 d3 fad3 htok3
              cases fad3 with
              | none => exact hold
              | some dd3 =>
                  obtain ⟨hh1, hh2, hh3, hh4, hh5⟩ := hold
                  have hFdis := hh5 (s.function_stack_index - 1) (by omega)
                  rw [hfabeq] at hFdis
                  refine ⟨hh1, hh2, by omega, ?_, ?_⟩
                  · have hc1 := hh4.set_outside
                      (t := .Function off nm 1 0 (some (s.output_index -
                        s.stack.getD (s.function_stack_index - 1) 0)))
                      (k := s.stack.getD (s.function_stack_index - 1) 0)
                      (by rcases hFdis.2 with hl | hr
                          · exact Or.inl (by omega)
                          · exact Or.inr (by omega))
                    have hc2 := hc1.set_outside (t := .FunctionArgEnd i none)
                      (k := s.output_index) (Or.inr (by omega))
                    exact hc2.set_outside
                      (by rcases hFdis.2 with hl | hr
                          · exact Or.inl (by omega)
                          · exact Or.inr (by omega))
                  · intro j hj
                    have hold5 := hh5 j (by omega)
                    rw [hst2_fwd_old j (by omega), hst2_bwd_old j (by omega)]
                    exact ⟨hold5.1, hold5.2⟩
      · -- a comma: the frame stays open with its new pending marker
        have hstep : scanStep input i ch s = .ok (send_output (.FunctionArgEnd i none)
            { s with
              output := some (o.set (s.stack.getD (s.function_stack_index - 1) 0)
                (.Function off nm 1 0 (some (s.output_index -
                  s.stack.getD (s.function_stack_index - 1) 0)))),
              stack := s.stack.set s.function_arg_begin_stack_index s.output_index }) := by
          unfold scanStep
          simp only [hfnb]
          rw [if_neg (show ¬(s.escaped = true) by simp [hesc]), if_neg h92, if_neg h123,
            if_neg hplain]
          have hinc2 := hinc
          have hpatch2 := hpatch
          simp only [hfnb] at hinc2 hpatch2
          simp only [hinc2, hpatch2]
          rw [if_neg hch125]
        refine ⟨_, (o.set (s.stack.getD (s.function_stack_index - 1) 0)
            (.Function off nm 1 0 (some (s.output_index -
              s.stack.getD (s.function_stack_index - 1) 0)))).set s.output_index
            (.FunctionArgEnd i none), hstep, ?_⟩
        have hfut := future_step hi hch hstep hfuture
        have hoi1 : s.output_index + 1 ≤ N := future_bound hfut
        have holt : s.output_index < o.length := by omega
        have hchain1 : ArgChain ((o.set (s.stack.getD (s.function_stack_index - 1) 0)
            (.Function off nm 1 0 (some (s.output_index -
              s.stack.getD (s.function_stack_index - 1) 0)))).set s.output_index
            (.FunctionArgEnd i none))
            (s.stack.getD (s.function_stack_index - 1) 0 +
              (s.output_index - s.stack.getD (s.function_stack_index - 1) 0)) 1
            s.output_index := by
          have hsum : s.stack.getD (s.function_stack_index - 1) 0 +
              (s.output_index - s.stack.getD (s.function_stack_index - 1) 0) =
              s.output_index := by omega
          rw [hsum]
          exact ArgChain.last s.output_index i (getD_set_self _ _ (by
            rw [List.length_set]; omega))
        refine ⟨by exact send_output_output rfl, by simp [holen], by simp [hslen],
          by simp; omega, by simp [hfnb]; omega, ?_, ?_, ?_, ?_, by simpa using hfut⟩
        · -- OrdInv: the top marker moved to the fresh FunctionArgEnd
          intro j hj
          simp only [send_output_stack, send_output_fsi, send_output_output_index] at hj ⊢
          by_cases hjtop : j = s.function_stack_index - 1
          · subst hjtop
            rw [hst2F, hst2B]
            refine ⟨by omega, by omega, ?_⟩
            intro j2 hj2 hj2b
            omega
          · have hjlt : j < s.function_stack_index - 1 := by omega
            obtain ⟨ho1, ho2, ho3⟩ := hord j (by omega)
            rw [hst2_fwd_old j (by omega), hst2_bwd_old j hjlt]
            refine ⟨ho1, by omega, ?_⟩
            intro j2 hj2 hj2b
            by_cases hj2top : j2 = s.function_stack_index - 1
            · rw [hj2top, hst2F]
              exact ho3 (s.function_stack_index - 1) hjlt (by omega)
            · rw [hst2_fwd_old j2 (by omega)]
              exact ho3 j2 hj2 (by omega)
        · -- OpenInv: the top function now has one argument and a live chain
          intro j hj
          simp only [send_output_stack, send_output_fsi] at hj ⊢
          by_cases hjtop : j = s.function_stack_index - 1
          · subst hjtop
            refine ⟨off, nm, 1, some (s.output_index -
              s.stack.getD (s.function_stack_index - 1) 0), ?_, hoff, ?_⟩
            · rw [hst2F, getD_set_ne _ _ (by omega :
                s.output_index ≠ s.stack.getD (s.function_stack_index - 1) 0),
                getD_set_self _ _ hFltN]
            · refine ⟨by omega, ?_⟩
              rw [hst2F, hst2B]
              exact hchain1
          · have hjlt : j < s.function_stack_index - 1 := by omega
            obtain ⟨off2, nm2, na2, fad2, htok2, hoff2, hrest2⟩ := hopen j (by omega)
            obtain ⟨ho1, ho2, ho3⟩ := hord j (by omega)
            have hjtop2 := ho3 (s.function_stack_index - 1) (by omega) (by omega)
            refine ⟨off2, nm2, na2, fad2, ?_, hoff2, ?_⟩
            · rw [hst2_fwd_old j (by omega),
                getD_set_ne _ _ (by omega : s.output_index ≠ s.stack.getD j 0),
                getD_set_ne _ _ (by omega : s.stack.getD (s.function_stack_index - 1) 0 ≠
                  s.stack.getD j 0)]
              exact htok2
            · cases fad2 with
              | none =>
                  obtain ⟨hna2, hbf2⟩ := hrest2
                  refine ⟨hna2, ?_⟩
                  rw [hst2_fwd_old j (by omega), hst2_bwd_old j hjlt]
                  exact hbf2
              | some dd2 =>
                  obtain ⟨hdd2, hchain2b⟩ := hrest2
                  rw [hst2_fwd_old j (by omega), hst2_bwd_old j hjlt]
                  refine ⟨hdd2, ?_⟩
                  have hc1 := hchain2b.set_outside
                    (t := .Function off nm 1 0 (some (s.output_index -
                      s.stack.getD (s.function_stack_index - 1) 0)))
                    (k := s.stack.getD (s.function_stack_index - 1) 0) (Or.inr (by omega))
                  exact hc1.set_outside (Or.inr (by omega))
        · -- NoInvalidBelow
          simp only [send_output_output_index]
          have h1 := noInvalidBelow_set (m := s.stack.getD (s.function_stack_index - 1) 0)
            hnoninv (t := .Function off nm 1 0 (some (s.output_index -
              s.stack.getD (s.function_stack_index - 1) 0))) (by intro hc; cases hc)
          exact noInvalidBelow_append h1 (by intro hc; cases hc)
            (by rw [List.length_set]; omega)
        · -- ClosedInv
          intro k hk hne off3 nm3 na3 d3 fad3 htok3
          simp only [send_output_stack, send_output_fsi, send_output_output_index]
            at hk hne htok3 ⊢
          by_cases hkoi : k = s.output_index
          · subst hkoi
            rw [getD_set_self _ _ (by rw [List.length_set]; omega)] at htok3
            cases htok3
          · have hkF : s.stack.getD (s.function_stack_index - 1) 0 ≠ k := by
              have := hne (s.function_stack_index - 1) (by omega)
              rw [hst2F] at this
              exact this
            have hklt : k < s.output_index := by omega
            rw [getD_set_ne _ _ (fun he => hkoi he.symm), getD_set_ne _ _ hkF] at htok3
            have hne2 : ∀ j, j < s.function_stack_index → s.stack.getD j 0 ≠ k := by
              intro j hj
              rw [← hst2_fwd_old j hj]
              exact hne j (by omega)
            have hold := hclosed k hklt hne2 off3 nm3 na3 d3 fad3 htok3
            cases fad3 with
            | none => exact hold
            | some dd3 =>
                obtain ⟨hh1, hh2, hh3, hh4, hh5⟩ := hold
                have hFdis := (hh5 (s.function_stack_index - 1) (by omega)).2
                refine ⟨hh1, hh2, by omega, ?_, ?_⟩
                · have hc1 := hh4.set_outside
                    (t := .Function off nm 1 0 (some (s.output_index -
                      s.stack.getD (s.function_stack_index - 1) 0)))
                    (k := s.stack.getD (s.function_stack_index - 1) 0)
                    (by rcases hFdis with hl | hr
                        · exact Or.inl (by omega)
                        · exact Or.inr (by omega))
                  exact hc1.set_outside (Or.inr (by omega))
                · intro j hj
                  by_cases hjtop : j = s.function_stack_index - 1
                  · subst hjtop
                    rw [hst2F, hst2B]
                    exact ⟨Or.inr (by omega), hh5 (s.function_stack_index - 1) (by omega) |>.2⟩
                  · rw [hst2_fwd_old j (by omega), hst2_bwd_old j (by omega)]
                    exact hh5 j (by omega)
  | some dd =>
      obtain ⟨hdd, hchain⟩ := hrest
      rw [hfabeq] at hchain
      have hFB : s.stack.getD (s.function_stack_index - 1) 0 <
          s.stack.getD s.function_arg_begin_stack_index 0 := by
        have := hchain.le_last
        omega
      have hFltN : s.stack.getD (s.function_stack_index - 1) 0 < o.length := by omega
      have hBltN : s.stack.getD s.function_arg_begin_stack_index 0 < o.length := by omega
      obtain ⟨offB, htermB⟩ := hchain.terminal
      have hoaB : (o.set (s.stack.getD (s.function_stack_index - 1) 0)
          (.Function off nm (na + 1) 0 (some dd))).getD
          (s.stack.getD s.function_arg_begin_stack_index 0) Token.Invalid
          = .FunctionArgEnd offB none := by
        rw [getD_set_ne _ _ (by omega)]
        exact htermB
      have hpatch : patchPendingMarker { s with
          output := some (o.set (s.stack.getD (s.function_stack_index - 1) 0)
            (.Function off nm (na + 1) 0 (some dd))) } = .ok { s with
          output := some ((o.set (s.stack.getD (s.function_stack_index - 1) 0)
            (.Function off nm (na + 1) 0 (some dd))).set
            (s.stack.getD s.function_arg_begin_stack_index 0)
            (.FunctionArgEnd offB
              (some (s.output_index - s.stack.getD s.function_arg_begin_stack_index 0)))) } := by
        unfold patchPendingMarker
        simp only [hoaB]
      by_cases hch125 : ch = 125
      · -- close the frame
        have hstep : scanStep input i ch s = .ok { s with
            output := some ((((o.set (s.stack.getD (s.function_stack_index - 1) 0)
                  (.Function off nm (na + 1) 0 (some dd))).set
                (s.stack.getD s.function_arg_begin_stack_index 0)
                (.FunctionArgEnd offB (some (s.output_index -
                  s.stack.getD s.function_arg_begin_stack_index 0)))).set s.output_index
                (.FunctionArgEnd i none)).set
              (s.stack.getD (s.function_stack_index - 1) 0)
              (.Function off nm (na + 1) (s.output_index + 1 -
                  s.stack.getD (s.function_stack_index - 1) 0) (some dd))),
            stack := s.stack.set s.function_arg_begin_stack_index s.output_index,
            output_index := s.output_index + 1,
            function_stack_index := s.function_stack_index - 1,
            function_arg_begin_stack_index := s.function_arg_begin_stack_index + 1 } := by
          unfold scanStep
          simp only [hfnb]
          rw [if_neg (show ¬(s.escaped = true) by simp [hesc]), if_neg h92, if_neg h123,
            if_neg hplain]
          have hinc2 := hinc
          have hpatch2 := hpatch
          simp only [hfnb] at hinc2 hpatch2
          simp only [hinc2, hpatch2]
          rw [if_pos hch125]
          unfold closeFunction
          have hodF : (((o.set (s.stack.getD (s.function_stack_index - 1) 0)
                (.Function off nm (na + 1) 0 (some dd))).set
              (s.stack.getD s.function_arg_begin_stack_index 0)
              (.FunctionArgEnd offB (some (s.output_index -
                s.stack.getD s.function_arg_begin_stack_index 0)))).set s.output_index
              (.FunctionArgEnd i none)).getD
              (s.stack.getD (s.function_stack_index - 1) 0) Token.Invalid
              = .Function off nm (na + 1) 0 (some dd) := by
            rw [getD_set_ne _ _ (by omega), getD_set_ne _ _ (by omega),
              getD_set_self _ _ hFltN]
          simp only [send_output, Option.map_some', hst2F, hodF]
        refine ⟨_, (((o.set (s.stack.getD (s.function_stack_index - 1) 0)
              (.Function off nm (na + 1) 0 (some dd))).set
            (s.stack.getD s.function_arg_begin_stack_index 0)
            (.FunctionArgEnd offB (some (s.output_index -
              s.stack.getD s.function_arg_begin_stack_index 0)))).set s.output_index
            (.FunctionArgEnd i none)).set
          (s.stack.getD (s.function_stack_index - 1) 0)
          (.Function off nm (na + 1) (s.output_index + 1 -
              s.stack.getD (s.function_stack_index - 1) 0) (some dd)),
          hstep, ?_⟩
        have hfut := future_step hi hch hstep hfuture
        have hoi1 : s.output_index + 1 ≤ N := future_bound hfut
        have holt : s.output_index < o.length := by omega
        have hchain_oa : ArgChain (o.set (s.stack.getD (s.function_stack_index - 1) 0)
            (.Function off nm (na + 1) 0 (some dd)))
            (s.stack.getD (s.function_stack_index - 1) 0 + dd) na
            (s.stack.getD s.function_arg_begin_stack_index 0) := by
          refine hchain.set_not_argEnd ?_
          intro off2 ad2 heq
          rw [htok] at heq
          cases heq
        have hchain_od : ArgChain (((o.set (s.stack.getD (s.function_stack_index - 1) 0)
              (.Function off nm (na + 1) 0 (some dd))).set
            (s.stack.getD s.function_arg_begin_stack_index 0)
            (.FunctionArgEnd offB (some (s.output_index -
              s.stack.getD s.function_arg_begin_stack_index 0)))).set s.output_index
            (.FunctionArgEnd i none))
            (s.stack.getD (s.function_stack_index - 1) 0 + dd) (na + 1)
            s.output_index :=
          hchain_oa.extend hoaB hordB (by rw [List.length_set]; omega)
        have hchain_oe : ArgChain ((((o.set (s.stack.getD (s.function_stack_index - 1) 0)
              (.Function off nm (na + 1) 0 (some dd))).set
            (s.stack.getD s.function_arg_begin_stack_index 0)
            (.FunctionArgEnd offB (some (s.output_index -
              s.stack.getD s.function_arg_begin_stack_index 0)))).set s.output_index
            (.FunctionArgEnd i none)).set
            (s.stack.getD (s.function_stack_index - 1) 0)
            (.Function off nm (na + 1) (s.output_index + 1 -
                s.stack.getD (s.function_stack_index - 1) 0) (some dd)))
            (s.stack.getD (s.function_stack_index - 1) 0 + dd) (na + 1)
            s.output_index :=
          hchain_od.set_outside (Or.inl (by omega))
        refine ⟨rfl, by simp [holen], by simp [hslen], by simp; omega,
          by simp [hfnb]; omega, ?_, ?_, ?_, ?_, by simpa using hfut⟩
        · -- OrdInv for the popped state
          intro j hj
          simp only at hj ⊢
          have hjlt : j < s.function_stack_index - 1 := hj
          obtain ⟨ho1, ho2, ho3⟩ := hord j (by omega)
          rw [hst2_fwd_old j (by omega), hst2_bwd_old j hjlt]
          refine ⟨ho1, by omega, ?_⟩
          intro j2 hj2 hj2b
          rw [hst2_fwd_old j2 (by omega)]
          exact ho3 j2 hj2 (by omega)
        · -- OpenInv for the popped state
          intro j hj
          simp only at hj ⊢
          have hjlt : j < s.function_stack_index - 1 := hj
          obtain ⟨off2, nm2, na2, fad2, htok2, hoff2, hrest2⟩ := hopen j (by omega)
          obtain ⟨ho1, ho2, ho3⟩ := hord j (by omega)
          have hjtop := ho3 (s.function_stack_index - 1) (by omega) (by omega)
          refine ⟨off2, nm2, na2, fad2, ?_, hoff2, ?_⟩
          · rw [hst2_fwd_old j (by omega),
              getD_set_ne _ _ (by omega : s.stack.getD (s.function_stack_index - 1) 0 ≠
                s.stack.getD j 0),
              getD_set_ne _ _ (by omega : s.output_index ≠ s.stack.getD j 0),
              getD_set_ne _ _ (by omega : s.stack.getD s.function_arg_begin_stack_index 0 ≠
                s.stack.getD j 0),
              getD_set_ne _ _ (by omega : s.stack.getD (s.function_stack_index - 1) 0 ≠
                s.stack.getD j 0)]
            exact htok2
          · cases fad2 with
            | none =>
                obtain ⟨hna2, hbf2⟩ := hrest2
                refine ⟨hna2, ?_⟩
                rw [hst2_fwd_old j (by omega), hst2_bwd_old j hjlt]
                exact hbf2
            | some dd2 =>
                obtain ⟨hdd2, hchain2b⟩ := hrest2
                rw [hst2_fwd_old j (by omega), hst2_bwd_old j hjlt]
                refine ⟨hdd2, ?_⟩
                have hc1 := hchain2b.set_outside
                  (t := .Function off nm (na + 1) 0 (some dd))
                  (k := s.stack.getD (s.function_stack_index - 1) 0) (Or.inr (by omega))
                have hc2 := hc1.set_outside
                  (t := .FunctionArgEnd offB (some (s.output_index -
                    s.stack.getD s.function_arg_begin_stack_index 0)))
                  (k := s.stack.getD s.function_arg_begin_stack_index 0)
                  (Or.inr (by omega))
                have hc3 := hc2.set_outside (t := .FunctionArgEnd i none)
                  (k := s.output_index) (Or.inr (by omega))
                exact hc3.set_outside (Or.inr (by omega))
        · -- NoInvalidBelow for the popped state
          simp only
          have h1 := noInvalidBelow_set
            (m := s.stack.getD (s.function_stack_index - 1) 0) hnoninv
            (t := .Function off nm (na + 1) 0 (some dd)) (by intro hc; cases hc)
          have h2 := noInvalidBelow_set
            (m := s.stack.getD s.function_arg_begin_stack_index 0) h1
            (t := .FunctionArgEnd offB (some (s.output_index -
              s.stack.getD s.function_arg_begin_stack_index 0))) (by intro hc; cases hc)
          have h3 := noInvalidBelow_append h2 (t := .FunctionArgEnd i none)
            (by intro hc; cases hc) (by rw [List.length_set, List.length_set]; omega)
          exact noInvalidBelow_set h3 (by intro hc; cases hc)
        · -- ClosedInv for the popped state
          intro k hk hne off3 nm3 na3 d3 fad3 htok3
          simp only at hk hne htok3 ⊢
          by_cases hkF : k = s.stack.getD (s.function_stack_index - 1) 0
          · subst hkF
            rw [getD_set_self _ _ (by
              rw [List.length_set, List.length_set, List.length_set]; omega)] at htok3
            injection htok3 with e1 e2 e3 e4 e5
            subst e3
            subst e4
            subst e5
            refine ⟨by omega, by omega, by omega, ?_, ?_⟩
            · have hd1 : s.stack.getD (s.function_stack_index - 1) 0 +
                  (s.output_index + 1 - s.stack.getD (s.function_stack_index - 1) 0) - 1
                  = s.output_index := by omega
              rw [hd1]
              exact hchain_oe
            · intro j hj
              obtain ⟨hoj1, hoj2, hoj3⟩ := hord j (by omega)
              have hjtop := hoj3 (s.function_stack_index - 1) (by omega) (by omega)
              rw [hst2_fwd_old j (by omega), hst2_bwd_old j (by omega)]
              omega
          · by_cases hkoi : k = s.output_index
            · subst hkoi
              rw [getD_set_ne _ _ (fun he => hkF he.symm),
                getD_set_self _ _ (by rw [List.length_set, List.length_set]; omega)]
                at htok3
              cases htok3
            · by_cases hkB : k = s.stack.getD s.function_arg_begin_stack_index 0
              · subst hkB
                rw [getD_set_ne _ _ (fun he => hkF he.symm),
                  getD_set_ne _ _ (fun he => hkoi he.symm),
                  getD_set_self _ _ (by rw [List.length_set]; omega)] at htok3
                cases htok3
              · have hklt : k < s.output_index := by omega
                rw [getD_set_ne _ _ (fun he => hkF he.symm),
                  getD_set_ne _ _ (fun he => hkoi he.symm),
                  getD_set_ne _ _ (fun he => hkB he.symm),
                  getD_set_ne _ _ (fun he => hkF he.symm)] at htok3
                have hne2 : ∀ j, j < s.function_stack_index → s.stack.getD j 0 ≠ k := by
                  intro j hj
                  by_cases hjtop : j = s.function_stack_index - 1
                  · subst hjtop
                    exact fun he => hkF (he.symm)
                  · rw [← hst2_fwd_old j hj]
                    exact hne j (by omega)
                have hold := hclosed k hklt hne2 off3 nm3 na3 d3 fad3 htok3
                cases fad3 with
                | none => exact hold
                | some dd3 =>
                    obtain ⟨hh1, hh2, hh3, hh4, hh5⟩ := hold
                    have hFdis := hh5 (s.function_stack_index - 1) (by omega)
                    rw [hfabeq] at hFdis
                    refine ⟨hh1, hh2, by omega, ?_, ?_⟩
                    · have hc1 := hh4.set_outside
                        (t := .Function off nm (na + 1) 0 (some dd))
                        (k := s.stack.getD (s.function_stack_index - 1) 0)
                        (by rcases hFdis.2 with hl | hr
                            · exact Or.inl (by omega)
                            · exact Or.inr (by omega))
                      have hc2 := hc1.set_outside
                        (t := .FunctionArgEnd offB (some (s.output_index -
                          s.stack.getD s.function_arg_begin_stack_index 0)))
                        (k := s.stack.getD s.function_arg_begin_stack_index 0)
                        (by rcases hFdis.1 with hl | hr
                            · exact Or.inl (by omega)
                            · exact Or.inr (by omega))
                      have hc3 := hc2.set_outside (t := .FunctionArgEnd i none)
                        (k := s.output_index) (Or.inr (by omega))
                      exact hc3.set_outside
                        (by rcases hFdis.2 with hl | hr
                            · exact Or.inl (by omega)
                            · exact Or.inr (by omega))
                    · intro j hj
                      have hold5 := hh5 j (by omega)
                      rw [hst2_fwd_old j (by omega), hst2_bwd_old j (by omega)]
                      exact ⟨hold5.1, hold5.2⟩
      · -- a comma: the frame stays open, chain extended by one marker
        have hstep : scanStep input i ch s = .ok (send_output (.FunctionArgEnd i none)
            { s with
              output := some ((o.set (s.stack.getD (s.function_stack_index - 1) 0)
                  (.Function off nm (na + 1) 0 (some dd))).set
                (s.stack.getD s.function_arg_begin_stack_index 0)
                (.FunctionArgEnd offB (some (s.output_index -
                  s.stack.getD s.function_arg_begin_stack_index 0)))),
              stack := s.stack.set s.function_arg_begin_stack_index s.output_index }) := by
          unfold scanStep
          simp only [hfnb]
          rw [if_neg (show ¬(s.escaped = true) by simp [hesc]), if_neg h92, if_neg h123,
            if_neg hplain]
          have hinc2 := hinc
          have hpatch2 := hpatch
          simp only [hfnb] at hinc2 hpatch2
          simp only [hinc2, hpatch2]
          rw [if_neg hch125]
        refine ⟨_, ((o.set (s.stack.getD (s.function_stack_index - 1) 0)
            (.Function off nm (na + 1) 0 (some dd))).set
          (s.stack.getD s.function_arg_begin_stack_index 0)
          (.FunctionArgEnd offB (some (s.output_index -
            s.stack.getD s.function_arg_begin_stack_index 0)))).set s.output_index
          (.FunctionArgEnd i none), hstep, ?_⟩
        have hfut := future_step hi hch hstep hfuture
        have hoi1 : s.output_index + 1 ≤ N := future_bound hfut
        have holt : s.output_index < o.length := by omega
        have hchain_oa : ArgChain (o.set (s.stack.getD (s.function_stack_index - 1) 0)
            (.Function off nm (na + 1) 0 (some dd)))
            (s.stack.getD (s.function_stack_index - 1) 0 + dd) na
            (s.stack.getD s.function_arg_begin_stack_index 0) := by
          refine hchain.set_not_argEnd ?_
          intro off2 ad2 heq
          rw [htok] at heq
          cases heq
        have hchain_od : ArgChain (((o.set (s.stack.getD (s.function_stack_index - 1) 0)
              (.Function off nm (na + 1) 0 (some dd))).set
            (s.stack.getD s.function_arg_begin_stack_index 0)
            (.FunctionArgEnd offB (some (s.output_index -
              s.stack.getD s.function_arg_begin_stack_index 0)))).set s.output_index
            (.FunctionArgEnd i none))
            (s.stack.getD (s.function_stack_index - 1) 0 + dd) (na + 1)
            s.output_index :=
          hchain_oa.extend hoaB hordB (by rw [List.length_set]; omega)
        refine ⟨by exact send_output_output rfl, by simp [holen], by simp [hslen],
          by simp; omega, by simp [hfnb]; omega, ?_, ?_, ?_, ?_, by simpa using hfut⟩
        · -- OrdInv
          intro j hj
          simp only [send_output_stack, send_output_fsi, send_output_output_index] at hj ⊢
          by_cases hjtop : j = s.function_stack_index - 1
          · subst hjtop
            rw [hst2F, hst2B]
            refine ⟨by omega, by omega, ?_⟩
            intro j2 hj2 hj2b
            omega
          · have hjlt : j < s.function_stack_index - 1 := by omega
            obtain ⟨ho1, ho2, ho3⟩ := hord j (by omega)
            rw [hst2_fwd_old j (by omega), hst2_bwd_old j hjlt]
            refine ⟨ho1, by omega, ?_⟩
            intro j2 hj2 hj2b
            by_cases hj2top : j2 = s.function_stack_index - 1
            · rw [hj2top, hst2F]
              exact ho3 (s.function_stack_index - 1) hjlt (by omega)
            · rw [hst2_fwd_old j2 (by omega)]
              exact ho3 j2 hj2 (by omega)
        · -- OpenInv: the top frame gained an argument
          intro j hj
          simp only [send_output_stack, send_output_fsi] at hj ⊢
          by_cases hjtop : j = s.function_stack_index - 1
          · subst hjtop
            refine ⟨off, nm, na + 1, some dd, ?_, hoff, ?_⟩
            · rw [hst2F, getD_set_ne _ _ (by omega :
                s.output_index ≠ s.stack.getD (s.function_stack_index - 1) 0),
                getD_set_ne _ _ (by omega :
                  s.stack.getD s.function_arg_begin_stack_index 0 ≠
                  s.stack.getD (s.function_stack_index - 1) 0),
                getD_set_self _ _ hFltN]
            · refine ⟨by omega, ?_⟩
              rw [hst2F, hst2B]
              exact hchain_od
          · have hjlt : j < s.function_stack_index - 1 := by omega
            obtain ⟨off2, nm2, na2, fad2, htok2, hoff2, hrest2⟩ := hopen j (by omega)
            obtain ⟨ho1, ho2, ho3⟩ := hord j (by omega)
            have hjtop2 := ho3 (s.function_stack_index - 1) (by omega) (by omega)
            refine ⟨off2, nm2, na2, fad2, ?_, hoff2, ?_⟩
            · rw [hst2_fwd_old j (by omega),
                getD_set_ne _ _ (by omega : s.output_index ≠ s.stack.getD j 0),
                getD_set_ne _ _ (by omega :
                  s.stack.getD s.function_arg_begin_stack_index 0 ≠ s.stack.getD j 0),
                getD_set_ne _ _ (by omega : s.stack.getD (s.function_stack_index - 1) 0 ≠
                  s.stack.getD j 0)]
              exact htok2
            · cases fad2 with
              | none =>
                  obtain ⟨hna2, hbf2⟩ := hrest2
                  refine ⟨hna2, ?_⟩
                  rw [hst2_fwd_old j (by omega), hst2_bwd_old j hjlt]
                  exact hbf2
              | some dd2 =>
                  obtain ⟨hdd2, hchain2b⟩ := hrest2
                  rw [hst2_fwd_old j (by omega), hst2_bwd_old j hjlt]
                  refine ⟨hdd2, ?_⟩
                  have hc1 := hchain2b.set_outside
                    (t := .Function off nm (na + 1) 0 (some dd))
                    (k := s.stack.getD (s.function_stack_index - 1) 0) (Or.inr (by omega))
                  have hc2 := hc1.set_outside
                    (t := .FunctionArgEnd offB (some (s.output_index -
                      s.stack.getD s.function_arg_begin_stack_index 0)))
                    (k := s.stack.getD s.function_arg_begin_stack_index 0)
                    (Or.inr (by omega))
                  exact hc2.set_outside (Or.inr (by omega))
        · -- NoInvalidBelow
          simp only [send_output_output_index]
          have h1 := noInvalidBelow_set
            (m := s.stack.getD (s.function_stack_index - 1) 0) hnoninv
            (t := .Function off nm (na + 1) 0 (some dd)) (by intro hc; cases hc)
          have h2 := noInvalidBelow_set
            (m := s.stack.getD s.function_arg_begin_stack_index 0) h1
            (t := .FunctionArgEnd offB (some (s.output_index -
              s.stack.getD s.function_arg_begin_stack_index 0))) (by intro hc; cases hc)
          exact noInvalidBelow_append h2 (by intro hc; cases hc)
            (by rw [List.length_set, List.length_set]; omega)
        · -- ClosedInv
          intro k hk hne off3 nm3 na3 d3 fad3 htok3
          simp only [send_output_stack, send_output_fsi, send_output_output_index]
            at hk hne htok3 ⊢
          by_cases hkoi : k = s.output_index
          · subst hkoi
            rw [getD_set_self _ _ (by rw [List.length_set, List.length_set]; omega)]
              at htok3
            cases htok3
          · have hkF : s.stack.getD (s.function_stack_index - 1) 0 ≠ k := by
              have := hne (s.function_stack_index - 1) (by omega)
              rw [hst2F] at this
              exact this
            by_cases hkB : k = s.stack.getD s.function_arg_begin_stack_index 0
            · subst hkB
              rw [getD_set_ne _ _ (fun he => hkoi he.symm),
                getD_set_self _ _ (by rw [List.length_set]; omega)] at htok3
              cases htok3
            · have hklt : k < s.output_index := by omega
              rw [getD_set_ne _ _ (fun he => hkoi he.symm),
                getD_set_ne _ _ (fun he => hkB he.symm),
                getD_set_ne _ _ hkF] at htok3
              have hne2 : ∀ j, j < s.function_stack_index → s.stack.getD j 0 ≠ k := by
                intro j hj
                rw [← hst2_fwd_old j hj]
                exact hne j (by omega)
              have hold := hclosed k hklt hne2 off3 nm3 na3 d3 fad3 htok3
              cases fad3 with
              | none => exact hold
              | some dd3 =>
                  obtain ⟨hh1, hh2, hh3, hh4, hh5⟩ := hold
                  have hFdis := hh5 (s.function_stack_index - 1) (by omega)
                  rw [hfabeq] at hFdis
                  refine ⟨hh1, hh2, by omega, ?_, ?_⟩
                  · have hc1 := hh4.set_outside
                      (t := .Function off nm (na + 1) 0 (some dd))
                      (k := s.stack.getD (s.function_stack_index - 1) 0)
                      (by rcases hFdis.2 with hl | hr
                          · exact Or.inl (by omega)
                          · exact Or.inr (by omega))
                    have hc2 := hc1.set_outside
                      (t := .FunctionArgEnd offB (some (s.output_index -
                        s.stack.getD s.function_arg_begin_stack_index 0)))
                      (k := s.stack.getD s.function_arg_begin_stack_index 0)
                      (by rcases hFdis.1 with hl | hr
                          · exact Or.inl (by omega)
                          · exact Or.inr (by omega))
                    exact hc2.set_outside (Or.inr (by omega))
                  · intro j hj
                    by_cases hjtop : j = s.function_stack_index - 1
                    · subst hjtop
                      rw [hst2F, hst2B]
                      exact ⟨Or.inr (by omega), hFdis.2⟩
                    · rw [hst2_fwd_old j (by omega), hst2_bwd_old j (by omega)]
                      exact hh5 j (by omega)

/-- One filling-pass step from any state satisfying the invariant succeeds and
preserves the invariant. -/
theorem fillInv_step {input : List Byte} {N i : Nat} {ch : Byte} {o : List Token}
    {s : ScanState} (hi : i < input.length) (hch : input.getD i 0 = ch)
    (inv : FillInv input N i o s) :
    ∃ s1 o1, scanStep input i ch s = .ok s1 ∧ FillInv input N (i + 1) o1 s1 := by
  cases hfnb : s.function_name_begin with
  | some v => exact fillInv_step_name hi hch inv hfnb
  | none =>
    obtain ⟨houtput, holen, hslen, hfib, hmode, hord, hopen, hnoninv, hclosed, hfuture⟩ := inv
    simp only [hfnb] at hmode
    cases hesc : s.escaped with
    | true =>
      by_cases hval : ch = 123 ∨ ch = 125 ∨ ch = 44 ∨ ch = 92
      · -- valid escape: one character token
        have hstep : scanStep input i ch s = .ok
            { send_output (.Character (i - 1) ch) s with escaped := false } := by
          unfold scanStep
          simp only [hfnb, hesc, if_true]
          rw [if_pos hval]
        refine ⟨_, o.set s.output_index (.Character (i - 1) ch), hstep, ?_⟩
        have hfut := future_step hi hch hstep hfuture
        have hoi1 : s.output_index + 1 ≤ N := future_bound hfut
        have holt : s.output_index < o.length := by omega
        refine ⟨send_output_output houtput, by simp [holen], hslen, hfib,
          by simp [hfnb]; omega, ordInv_oi_mono hord (Nat.le_succ _),
          openInv_set_hi hopen hord (Nat.le_refl _),
          noInvalidBelow_append hnoninv (by intro hc; cases hc) holt,
          closedInv_append_non_fn hclosed (by intro o2 n2 a2 d2 f2 hc; cases hc),
          by simpa using hfut⟩
      · -- invalid escape: the backslash and the byte are both emitted
        have hstep : scanStep input i ch s = .ok
            { send_output (.Character i ch)
              (send_output (.Character (i - 1) 92) s) with escaped := false } := by
          unfold scanStep
          simp only [hfnb, hesc, if_true]
          rw [if_neg hval]
        refine ⟨_, (o.set s.output_index (.Character (i - 1) 92)).set
          (s.output_index + 1) (.Character i ch), hstep, ?_⟩
        have hfut := future_step hi hch hstep hfuture
        have hoi2 : s.output_index + 1 + 1 ≤ N := future_bound hfut
        have holt : s.output_index < o.length := by omega
        have holt2 : s.output_index + 1 <
            (o.set s.output_index (.Character (i - 1) 92)).length := by
          rw [List.length_set]; omega
        have hni : NoInvalidBelow (s.output_index + 1 + 1)
            ((o.set s.output_index (.Character (i - 1) 92)).set
              (s.output_index + 1) (.Character i ch)) :=
          noInvalidBelow_append
            (noInvalidBelow_append hnoninv (by intro hc; cases hc) holt)
            (by intro hc; cases hc) holt2
        refine ⟨send_output_output (send_output_output houtput),
          by simp [holen], hslen, hfib, by simp [hfnb]; omega,
          ordInv_oi_mono hord (Nat.le_succ_of_le (Nat.le_succ _)),
          openInv_set_hi (openInv_set_hi hopen hord (Nat.le_refl _)) hord (Nat.le_succ _),
          hni,
          closedInv_append_non_fn
            (closedInv_append_non_fn hclosed (by intro o2 n2 a2 d2 f2 hc; cases hc))
            (by intro o2 n2 a2 d2 f2 hc; cases hc),
          by simpa using hfut⟩
    | false =>
      by_cases h92 : ch = 92
      · -- backslash: only the escaped flag moves
        have hstep : scanStep input i ch s = .ok { s with escaped := true } := by
          unfold scanStep
          simp only [hfnb]
          rw [if_neg (show ¬(s.escaped = true) by simp [hesc]), if_pos h92]
        refine ⟨_, o, hstep, ?_⟩
        have hfut := future_step hi hch hstep hfuture
        exact ⟨houtput, holen, hslen, hfib, by simp [hfnb]; omega, hord, hopen,
          hnoninv, hclosed, by simpa using hfut⟩
      · by_cases h123 : ch = 123
        · -- open brace: enter name-collecting mode
          have hstep : scanStep input i ch s = .ok
              { s with function_name_begin := some (i + 1) } := by
            unfold scanStep
            simp only [hfnb]
            rw [if_neg (show ¬(s.escaped = true) by simp [hesc]), if_neg h92,
              if_pos h123]
          refine ⟨_, o, hstep, ?_⟩
          have hfut := future_step hi hch hstep hfuture
          refine ⟨houtput, holen, hslen, hfib, ?_, hord, hopen, hnoninv, hclosed,
            by simpa using hfut⟩
          simp only
          exact ⟨by omega, Nat.le_refl _, by omega, h123 ▸ hch⟩
        · by_cases hplain : s.function_stack_index = 0 ∨ (ch ≠ 44 ∧ ch ≠ 125)
          · -- ordinary character token
            have hstep : scanStep input i ch s =
                .ok (send_output (.Character i ch) s) := by
              unfold scanStep
              simp only [hfnb]
              rw [if_neg (show ¬(s.escaped = true) by simp [hesc]), if_neg h92,
                if_neg h123, if_pos hplain]
            refine ⟨_, o.set s.output_index (.Character i ch), hstep, ?_⟩
            have hfut := future_step hi hch hstep hfuture
            have hoi1 : s.output_index + 1 ≤ N := future_bound hfut
            have holt : s.output_index < o.length := by omega
            refine ⟨send_output_output houtput, by simp [holen], hslen, hfib,
              by simp [hfnb]; omega, ordInv_oi_mono hord (Nat.le_succ _),
              openInv_set_hi hopen hord (Nat.le_refl _),
              noInvalidBelow_append hnoninv (by intro hc; cases hc) holt,
              closedInv_append_non_fn hclosed (by intro o2 n2 a2 d2 f2 hc; cases hc),
              by simpa using hfut⟩
          · exact fillInv_step_delim hi hch
              ⟨houtput, holen, hslen, hfib, by simp [hfnb]; omega, hord, hopen,
                hnoninv, hclosed, hfuture⟩ hfnb hesc h92 h123 hplain

/-- Running the filling scan over the remaining input from any invariant state
succeeds and lands in an invariant state at the end of the consumed range. -/
theorem fillInv_loop {input : List Byte} {N : Nat} :
    ∀ (rest : List Byte) (i : Nat) (o : List Token) (s : ScanState),
      input.drop i = rest → FillInv input N i o s →
      ∃ s1 o1, scanLoop input i rest s = .ok s1 ∧
        FillInv input N (i + rest.length) o1 s1 := by
  intro rest
  induction rest with
  | nil =>
      intro i o s _ inv
      exact ⟨s, o, rfl, inv⟩
  | cons ch rest2 ih =>
      intro i o s hdrop inv
      have hi : i < input.length := by
        by_contra hge
        rw [List.drop_eq_nil_of_le (by omega)] at hdrop
        cases hdrop
      have hd2 : input.drop i = input.getD i 0 :: input.drop (i + 1) := drop_step hi
      rw [hdrop] at hd2
      injection hd2 with hch hrest
      obtain ⟨s1, o1, hstep, inv1⟩ := fillInv_step hi hch.symm inv
      obtain ⟨s2, o2, hloop, inv2⟩ := ih (i + 1) o1 s1 hrest.symm inv1
      refine ⟨s2, o2, ?_, ?_⟩
      · simp only [scanLoop, hstep]
        exact hloop
      · have he : i + (ch :: rest2).length = i + 1 + rest2.length := by
          simp only [List.length_cons]
          omega
        rw [he]
        exact inv2

/-- The initial state of the filling pass satisfies the invariant whenever the
scratch buffer has the input's length and the buffer is at least as large as
the count computed by the sizing pass. -/
theorem fillInv_init {input : List Byte} {stack : List Nat} {buf : List Token}
    {sz : ScanState} (hsl : stack.length = input.length)
    (hsz : scanLoop input 0 input (initState stack none) = .ok sz)
    (hn : sz.output_index ≤ buf.length) :
    FillInv input buf.length 0 buf (initState stack (some buf)) := by
  refine ⟨rfl, rfl, hsl, ?_, ?_, ?_, ?_, ?_, ?_, ?_⟩
  · show stack.length + 0 = input.length
    omega
  · show 2 * 0 ≤ 0
    exact Nat.le_refl 0
  · intro j hj
    exact absurd hj (Nat.not_lt_zero j)
  · intro j hj
    exact absurd hj (Nat.not_lt_zero j)
  · intro k hk
    exact absurd hk (Nat.not_lt_zero k)
  · intro k hk
    exact absurd hk (Nat.not_lt_zero k)
  · refine ⟨sz, ?_, hn⟩
    show scanLoop input 0 (input.drop 0) (initState stack none) = .ok sz
    rw [List.drop_zero]
    exact hsz

/-- Running the filling pass after a successful sizing pass with a big enough
buffer always completes the scan loop, lands in an invariant state, and erases
to the sizing pass's final state. -/
theorem fill_run {input : List Byte} {stack : List Nat} (buf : List Token)
    {sz : ScanState} (hsl : stack.length = input.length)
    (hsz : scanLoop input 0 input (initState stack none) = .ok sz)
    (hn : sz.output_index ≤ buf.length) :
    ∃ sf o1, scanLoop input 0 input (initState stack (some buf)) = .ok sf ∧
      FillInv input buf.length input.length o1 sf ∧ eraseOut sf = sz := by
  obtain ⟨sf, o1, hloop, invf⟩ := fillInv_loop input 0 buf
    (initState stack (some buf)) (List.drop_zero input) (fillInv_init hsl hsz hn)
  rw [Nat.zero_add] at invf
  have herase : scanLoop input 0 input (initState stack none) = .ok (eraseOut sf) :=
    scanLoop_erase input 0 (initState stack (some buf)) sf hloop
  rw [hsz] at herase
  injection herase with herase
  exact ⟨sf, o1, hloop, invf, herase.symm⟩

/-- A successful end-of-input check in the filling pass forces all frames to be
closed and returns the final write position together with the buffer. -/
theorem finish_fill {input : List Byte} {N : Nat} {o1 : List Token}
    {sf : ScanState} {n : Nat} {res : Option (List Token)}
    (invf : FillInv input N input.length o1 sf)
    (hok : finishTokenize sf = .ok (n, res)) :
    sf.function_stack_index = 0 ∧ n = sf.output_index ∧ res = some o1 := by
  obtain ⟨houtput, holen, hslen, hfib, hmode, hord, hopen, hnoninv, hclosed,
    hfuture⟩ := invf
  have hres := finishTokenize_ok hok
  unfold finishTokenize at hok
  cases hfnb : sf.function_name_begin with
  | some v =>
      simp only [hfnb] at hok
      exact Except.noConfusion hok
  | none =>
      simp only [hfnb] at hok
      by_cases hfsi : sf.function_stack_index ≠ 0
      · rw [if_pos hfsi] at hok
        simp only [houtput] at hok
        obtain ⟨off, nm, na, fad, htok, hoff, hrest⟩ :=
          hopen (sf.function_stack_index - 1) (by omega)
        simp only [htok] at hok
        exact Except.noConfusion hok
      · push_neg at hfsi
        exact ⟨hfsi, hres.1, by rw [hres.2, houtput]⟩

/-- Claim C2: when the scan consumes all input with at least one function still
open and no name collection in progress, the sizing pass (no buffer) returns
the computed count successfully, while the filling pass on a buffer of exactly
that size fails with the unclosed-function error at the offset stored in the
topmost open `Function` token, an offset holding the opening `\x7b` byte.
(`ErrReason.unclosed` embeds the source error string
"function is not closed".) -/
theorem unclosed_function_error (input : List Byte) (stack : List Nat)
    (sz : ScanState) (hsl : stack.length = input.length)
    (hsz : scanLoop input 0 input (initState stack none) = .ok sz)
    (hfnb : sz.function_name_begin = none)
    (hfsi : sz.function_stack_index ≠ 0) :
    tokenize input stack none = .ok (sz.output_index, none) ∧
    ∃ off, tokenize input stack
        (some (List.replicate sz.output_index Token.Invalid)) =
        .error (off, ErrReason.unclosed) ∧ input.getD off 0 = 123 := by
  constructor
  · have hout : sz.output = none := by
      obtain ⟨t, ht, htn, _⟩ := scanLoop_none input 0 (initState stack none) rfl
      rw [hsz] at ht
      injection ht with ht
      rw [ht]
      exact htn
    unfold tokenize
    simp only [hsz]
    unfold finishTokenize
    simp only [hfnb, hout]
    rw [if_pos hfsi]
  · obtain ⟨sf, o1, hloop, invf, herase⟩ :=
      fill_run (List.replicate sz.output_index Token.Invalid) hsl hsz
        (by simp)
    obtain ⟨houtput, holen, hslen, hfib, hmode, hord, hopen, hnoninv, hclosed,
      hfuture⟩ := invf
    have hfnbf : sf.function_name_begin = none := by
      have h1 : sf.function_name_begin = sz.function_name_begin := by
        simpa using congrArg ScanState.function_name_begin herase
      rw [h1, hfnb]
    have hfsif : sf.function_stack_index ≠ 0 := by
      have h1 : sf.function_stack_index = sz.function_stack_index := by
        simpa using congrArg ScanState.function_stack_index herase
      rw [h1]
      exact hfsi
    obtain ⟨off, nm, na, fad, htok, hoff, hrest⟩ :=
      hopen (sf.function_stack_index - 1) (by omega)
    refine ⟨off, ?_, hoff⟩
    unfold tokenize
    simp only [hloop]
    unfold finishTokenize
    simp only [hfnbf, houtput]
    rw [if_pos hfsif]
    simp only [htok]

/-- Witness for C2 on the input `"\x7bhi,ab"`: the sizing pass returns 3 and
the filling pass fails with the unclosed-function error at offset 0, which
holds the opening brace. -/
theorem unclosed_function_error_witness :
    tokenize [123, 104, 105, 44, 97, 98] [0, 0, 0, 0, 0, 0] none =
      .ok (3, none) ∧
    ∃ off, tokenize [123, 104, 105, 44, 97, 98] [0, 0, 0, 0, 0, 0]
        (some (List.replicate 3 Token.Invalid)) =
        .error (off, ErrReason.unclosed) ∧
      [123, 104, 105, 44, 97, 98].getD off 0 = 123 :=
  unclosed_function_error [123, 104, 105, 44, 97, 98] [0, 0, 0, 0, 0, 0]
    ⟨none, 3, false, [0, 0, 0, 0, 0, 0], 1, 5, none⟩ rfl rfl rfl
    (by decide)

/-- Claim C3: when the scan consumes all input while still collecting a
function name, both passes fail with the incomplete-name error at the name's
start offset `v`, which sits immediately after the opening `\x7b` byte.
(`ErrReason.incompleteName` embeds the source error string for a function name
that was not completed.) -/
theorem incomplete_name_error (input : List Byte) (stack : List Nat)
    (sz : ScanState) (v : Nat) (hsl : stack.length = input.length)
    (hsz : scanLoop input 0 input (initState stack none) = .ok sz)
    (hfnb : sz.function_name_begin = some v) :
    tokenize input stack none = .error (v, ErrReason.incompleteName) ∧
    tokenize input stack (some (List.replicate sz.output_index Token.Invalid)) =
      .error (v, ErrReason.incompleteName) ∧
    1 ≤ v ∧ input.getD (v - 1) 0 = 123 := by
  obtain ⟨sf, o1, hloop, invf, herase⟩ :=
    fill_run (List.replicate sz.output_index Token.Invalid) hsl hsz
      (by simp)
  obtain ⟨houtput, holen, hslen, hfib, hmode, hord, hopen, hnoninv, hclosed,
    hfuture⟩ := invf
  have hfnbf : sf.function_name_begin = some v := by
    have h1 : sf.function_name_begin = sz.function_name_begin := by
      simpa using congrArg ScanState.function_name_begin herase
    rw [h1, hfnb]
  simp only [hfnbf] at hmode
  obtain ⟨hv1, hvi, hv2, hbrace⟩ := hmode
  refine ⟨?_, ?_, hv1, hbrace⟩
  · unfold tokenize
    simp only [hsz]
    unfold finishTokenize
    simp only [hfnb]
  · unfold tokenize
    simp only [hloop]
    unfold finishTokenize
    simp only [hfnbf]

/-- Witness for C3 on the input `"\x7bhi"`: both passes fail with the
incomplete-name error at offset 1, and offset 0 holds the opening brace. -/
theorem incomplete_name_error_witness :
    tokenize [123, 104, 105] [0, 0, 0] none =
      .error (1, ErrReason.incompleteName) ∧
    tokenize [123, 104, 105] [0, 0, 0] (some (List.replicate 0 Token.Invalid)) =
      .error (1, ErrReason.incompleteName) ∧
    1 ≤ 1 ∧ [123, 104, 105].getD (1 - 1) 0 = 123 :=
  incomplete_name_error [123, 104, 105] [0, 0, 0]
    ⟨none, 0, false, [0, 0, 0], 0, 3, some 1⟩ 1 rfl rfl rfl

/-- Claim C5: in every token stream the filling pass completes successfully,
a `Function` token's `delta` exceeds 1 exactly when it has at least one
argument; a zero-argument `Function` has `delta = 1` and no
`first_arg_delta`, and `first_arg_delta` is absent exactly when
`num_args = 0`. -/
theorem function_arity_delta (input : List Byte) (stack : List Nat)
    (sz : ScanState) (n : Nat) (o1 : List Token)
    (hsl : stack.length = input.length)
    (hsz : scanLoop input 0 input (initState stack none) = .ok sz)
    (hfill : tokenize input stack
      (some (List.replicate sz.output_index Token.Invalid)) = .ok (n, some o1)) :
    ∀ k, k < n → ∀ off nm na d fad,
      o1.getD k Token.Invalid = .Function off nm na d fad →
      ((1 < d ↔ 1 ≤ na) ∧ (fad = none ↔ na = 0) ∧
        (na = 0 → d = 1 ∧ fad = none)) := by
  obtain ⟨sf, o1b, hloop, invf, herase⟩ :=
    fill_run (List.replicate sz.output_index Token.Invalid) hsl hsz
      (by simp)
  have hfin : finishTokenize sf = .ok (n, some o1) := by
    unfold tokenize at hfill
    simp only [hloop] at hfill
    exact hfill
  obtain ⟨hfsi0, hn2, hres⟩ := finish_fill invf hfin
  obtain ⟨houtput, holen, hslen, hfib, hmode, hord, hopen, hnoninv, hclosed,
    hfuture⟩ := invf
  injection hres with hres
  subst hres
  intro k hk off nm na d fad htok
  have hkoi : k < sf.output_index := by omega
  have hclosedk := hclosed k hkoi
    (by intro j hj
        exact absurd (hfsi0 ▸ hj) (Nat.not_lt_zero j))
    off nm na d fad htok
  cases fad with
  | none =>
      obtain ⟨hna, hd⟩ := hclosedk
      exact ⟨⟨fun h1 => by omega, fun h1 => by omega⟩,
        ⟨fun _ => hna, fun _ => rfl⟩, fun _ => ⟨hd, rfl⟩⟩
  | some dd =>
      obtain ⟨hdd, h2d, hkd, hchain, hsp⟩ := hclosedk
      have hna1 := hchain.one_le
      refine ⟨⟨fun _ => hna1, fun _ => by omega⟩, ⟨?_, ?_⟩, ?_⟩
      · intro hcon
        cases hcon
      · intro hna0
        omega
      · intro hna0
        omega

/-- Witness for C5 on the input `"\x7bn,1,2\x7d"`, whose only `Function`
token has two arguments, `delta = 5` and `first_arg_delta = some 2`. -/
theorem function_arity_delta_witness :
    (1 < 5 ↔ 1 ≤ 2) ∧ ((some 2 : Option Nat) = none ↔ 2 = 0) ∧
      (2 = 0 → 5 = 1 ∧ (some 2 : Option Nat) = none) :=
  function_arity_delta [123, 110, 44, 49, 44, 50, 125] [0, 0, 0, 0, 0, 0, 0]
    ⟨none, 5, false, [0, 0, 0, 0, 0, 0, 4], 0, 7, none⟩ 5
    [.Function 0 [110] 2 5 (some 2), .Character 3 49,
      .FunctionArgEnd 4 (some 2), .Character 5 50, .FunctionArgEnd 6 none]
    rfl rfl rfl 0 (by decide) 0 [110] 2 5 (some 2) rfl

/-- Claim C6: for every `Function` token in a successfully produced stream,
following `first_arg_delta` and then the `arg_delta` links visits exactly
`num_args` `FunctionArgEnd` tokens and stops at one whose `arg_delta` is
`none`; the chain is empty (no `first_arg_delta`) exactly when the function
has no arguments. -/
theorem function_arg_chain (input : List Byte) (stack : List Nat)
    (sz : ScanState) (n : Nat) (o1 : List Token)
    (hsl : stack.length = input.length)
    (hsz : scanLoop input 0 input (initState stack none) = .ok sz)
    (hfill : tokenize input stack
      (some (List.replicate sz.output_index Token.Invalid)) = .ok (n, some o1)) :
    ∀ k, k < n → ∀ off nm na d fad,
      o1.getD k Token.Invalid = .Function off nm na d fad →
      (fad = none → na = 0) ∧
      ∀ dd, fad = some dd → ∃ last offl, ArgChain o1 (k + dd) na last ∧
        o1.getD last Token.Invalid = .FunctionArgEnd offl none := by
  obtain ⟨sf, o1b, hloop, invf, herase⟩ :=
    fill_run (List.replicate sz.output_index Token.Invalid) hsl hsz
      (by simp)
  have hfin : finishTokenize sf = .ok (n, some o1) := by
    unfold tokenize at hfill
    simp only [hloop] at hfill
    exact hfill
  obtain ⟨hfsi0, hn2, hres⟩ := finish_fill invf hfin
  obtain ⟨houtput, holen, hslen, hfib, hmode, hord, hopen, hnoninv, hclosed,
    hfuture⟩ := invf
  injection hres with hres
  subst hres
  intro k hk off nm na d fad htok
  have hkoi : k < sf.output_index := by omega
  have hclosedk := hclosed k hkoi
    (by intro j hj
        exact absurd (hfsi0 ▸ hj) (Nat.not_lt_zero j))
    off nm na d fad htok
  constructor
  · intro hfadn
    subst hfadn
    exact hclosedk.1
  · intro dd hfads
    subst hfads
    obtain ⟨hdd, h2d, hkd, hchain, hsp⟩ := hclosedk
    obtain ⟨offl, hterm⟩ := hchain.terminal
    exact ⟨k + d - 1, offl, hchain, hterm⟩

/-- Witness for C6 on the input `"\x7bn,1,2\x7d"`: the function's chain
starts two slots after it, visits its two argument markers, and ends at the
marker at slot 4 whose link is `none`. -/
theorem function_arg_chain_witness :
    ((some 2 : Option Nat) = none → 2 = 0) ∧
    ∀ dd, (some 2 : Option Nat) = some dd →
      ∃ last offl, ArgChain [Token.Function 0 [110] 2 5 (some 2),
        .Character 3 49, .FunctionArgEnd 4 (some 2), .Character 5 50,
        .FunctionArgEnd 6 none] (0 + dd) 2 last ∧
      ([Token.Function 0 [110] 2 5 (some 2), .Character 3 49,
        .FunctionArgEnd 4 (some 2), .Character 5 50,
        .FunctionArgEnd 6 none].getD last Token.Invalid =
          .FunctionArgEnd offl none) :=
  function_arg_chain [123, 110, 44, 49, 44, 50, 125] [0, 0, 0, 0, 0, 0, 0]
    ⟨none, 5, false, [0, 0, 0, 0, 0, 0, 4], 0, 7, none⟩ 5
    [.Function 0 [110] 2 5 (some 2), .Character 3 49,
      .FunctionArgEnd 4 (some 2), .Character 5 50, .FunctionArgEnd 6 none]
    rfl rfl rfl 0 (by decide) 0 [110] 2 5 (some 2) rfl

/-- Claim C9: when the filling pass succeeds on a buffer pre-filled with the
`Invalid` sentinel, every slot below the returned count was overwritten with a
real token, so the sentinel never survives in a successful result. -/
theorem no_invalid_in_result (input : List Byte) (stack : List Nat)
    (sz : ScanState) (n : Nat) (o1 : List Token)
    (hsl : stack.length = input.length)
    (hsz : scanLoop input 0 input (initState stack none) = .ok sz)
    (hfill : tokenize input stack
      (some (List.replicate sz.output_index Token.Invalid)) = .ok (n, some o1)) :
    ∀ k, k < n → o1.getD k Token.Invalid ≠ Token.Invalid := by
  obtain ⟨sf, o1b, hloop, invf, herase⟩ :=
    fill_run (List.replicate sz.output_index Token.Invalid) hsl hsz
      (by simp)
  have hfin : finishTokenize sf = .ok (n, some o1) := by
    unfold tokenize at hfill
    simp only [hloop] at hfill
    exact hfill
  obtain ⟨hfsi0, hn2, hres⟩ := finish_fill invf hfin
  obtain ⟨houtput, holen, hslen, hfib, hmode, hord, hopen, hnoninv, hclosed,
    hfuture⟩ := invf
  injection hres with hres
  subst hres
  intro k hk
  exact hnoninv k (by omega)

/-- Witness for C9 on the input `"abc"`: all three filled slots hold real
tokens. -/
theorem no_invalid_in_result_witness :
    ([Token.Character 0 97, Token.Character 1 98,
      Token.Character 2 99].getD 0 Token.Invalid ≠ Token.Invalid) :=
  no_invalid_in_result [97, 98, 99] [0, 0, 0]
    ⟨none, 3, false, [0, 0, 0], 0, 3, none⟩ 3
    [Token.Character 0 97, Token.Character 1 98, Token.Character 2 99]
    rfl rfl rfl 0 (by decide)

end LangExpr
